import Mathlib

/-!
Verification of the STC / MC-STC computation engine of the Secuflow backend.

The definitions below are shallow embeddings of the Python sources
`backend/stc_analysis/services.py` and `backend/mcstc_analysis/services.py`.
Numeric matrix entries are modelled as rationals; numpy matrices of a fixed
shape are `Matrix (Fin m) (Fin n) ℚ`, dynamically shaped numpy arrays are a
`rows`/`cols`/`entry` structure.  Python exceptions are modelled with
`Except String`.
-/

open Matrix

/-- Absolute tolerance of `numpy.allclose` (default `1e-8`). -/
def npAtol : ℚ := 1 / 100000000

/-- Relative tolerance of `numpy.allclose` (default `1e-5`). -/
def npRtol : ℚ := 1 / 100000

/-- Embedding of `numpy.allclose(a, b)`:
`|a - b| <= atol + rtol * |b|` entrywise. -/
def npAllclose {m n : ℕ} (a b : Matrix (Fin m) (Fin n) ℚ) : Prop :=
  ∀ i j, abs (a i j - b i j) ≤ npAtol + npRtol * abs (b i j)

instance {m n : ℕ} (a b : Matrix (Fin m) (Fin n) ℚ) : Decidable (npAllclose a b) := by
  unfold npAllclose; infer_instance

/-- `STCService.calculate_cr_matrix`: `CR = CA × CA^T`. -/
def calculate_cr_matrix {m k : ℕ} (ca_matrix : Matrix (Fin m) (Fin k) ℚ) :
    Matrix (Fin m) (Fin m) ℚ :=
  ca_matrix * ca_matrix.transpose

/-- `MCSTCAnalysisService.start_analysis` line `ca_matrix = assignment_np @ assignment_np.T`
(the continuous collaboration-strength CA construction path). -/
def start_analysis_ca_matrix {m k : ℕ} (assignment : Matrix (Fin m) (Fin k) ℚ) :
    Matrix (Fin m) (Fin m) ℚ :=
  assignment * assignment.transpose

/-- `STCService.calculate_kirchhoff_matrix`: `L = D - A` where `D` is the
diagonal matrix of row sums of `A`. -/
def calculate_kirchhoff_matrix {n : ℕ} (adjacency_matrix : Matrix (Fin n) (Fin n) ℚ) :
    Matrix (Fin n) (Fin n) ℚ :=
  Matrix.diagonal (fun i => ∑ j, adjacency_matrix i j) - adjacency_matrix

/-- `STCService.calculate_cofactor`: determinant of the matrix with row `i`
and column `j` removed (`np.delete` on each axis). -/
def calculate_cofactor {n : ℕ} (m : Matrix (Fin (n + 1)) (Fin (n + 1)) ℚ)
    (i j : Fin (n + 1)) : ℚ :=
  (m.submatrix i.succAbove j.succAbove).det

/-- `STCService.calculate_spanning_tree_count`: the `(0,0)` cofactor of the
Kirchhoff matrix. -/
def calculate_spanning_tree_count {n : ℕ}
    (kirchhoff_matrix : Matrix (Fin (n + 1)) (Fin (n + 1)) ℚ) : ℚ :=
  calculate_cofactor kirchhoff_matrix 0 0

/-- `STCService.calculate_edge_participation`: for each unordered pair `i < j`
with `A[i,j] > 0`, both symmetric entries are set to
`w * K[i,i] * K[j,j] - w * K[i,j] * K[j,i]`; all other entries stay `0`. -/
def calculate_edge_participation {n : ℕ} (adjacency_matrix kirchhoff_matrix :
    Matrix (Fin n) (Fin n) ℚ) : Matrix (Fin n) (Fin n) ℚ :=
  fun i j =>
    if i < j then
      if 0 < adjacency_matrix i j then
        adjacency_matrix i j * kirchhoff_matrix i i * kirchhoff_matrix j j -
          adjacency_matrix i j * kirchhoff_matrix i j * kirchhoff_matrix j i
      else 0
    else if j < i then
      if 0 < adjacency_matrix j i then
        adjacency_matrix j i * kirchhoff_matrix j j * kirchhoff_matrix i i -
          adjacency_matrix j i * kirchhoff_matrix j i * kirchhoff_matrix i j
      else 0
    else 0

/-- `STCService.calculate_stc_from_cr`.  The two `ValueError`s are the
`Except.error` branches; a non-positive spanning-tree count yields the all-zero
map; otherwise node `i` gets `(Σ_j P[i,j]) / τ`. -/
def calculate_stc_from_cr {n : ℕ} (cr_matrix : Matrix (Fin (n + 1)) (Fin (n + 1)) ℚ) :
    Except String (Fin (n + 1) → ℚ) :=
  if ¬ npAllclose cr_matrix cr_matrix.transpose then
    Except.error "CR matrix must be symmetric"
  else if ∃ i j, cr_matrix i j < 0 then
    Except.error "CR matrix must contain non-negative values"
  else if calculate_spanning_tree_count (calculate_kirchhoff_matrix cr_matrix) ≤ 0 then
    Except.ok (fun _ => 0)
  else
    Except.ok (fun i =>
      (∑ j, calculate_edge_participation cr_matrix (calculate_kirchhoff_matrix cr_matrix) i j) /
        calculate_spanning_tree_count (calculate_kirchhoff_matrix cr_matrix))

theorem npAllclose_of_eq {m n : ℕ} (a b : Matrix (Fin m) (Fin n) ℚ) (h : a = b) :
    npAllclose a b := by
  intro i j
  rw [h, sub_self, abs_zero]
  have h1 : (0 : ℚ) < npAtol := by norm_num [npAtol]
  have h2 : (0 : ℚ) ≤ npRtol * abs (b i j) := by
    apply mul_nonneg (by norm_num [npRtol]) (abs_nonneg _)
  linarith

/-- C8: for every symmetric non-negative CR matrix whose Laplacian (0,0)-cofactor
is ≤ 0, the exact centrality computation returns centrality 0 for every node and
raises no error. -/
theorem stc_zero_trees_zero_centrality {n : ℕ}
    (cr : Matrix (Fin (n + 1)) (Fin (n + 1)) ℚ)
    (hsym : cr.transpose = cr) (hnn : ∀ i j, 0 ≤ cr i j)
    (htau : calculate_spanning_tree_count (calculate_kirchhoff_matrix cr) ≤ 0) :
    calculate_stc_from_cr cr = Except.ok (fun _ => 0) := by
  have hac : npAllclose cr cr.transpose := npAllclose_of_eq _ _ hsym.symm
  have hneg : ¬ ∃ i j, cr i j < 0 := by
    push_neg
    intro i j
    exact hnn i j
  unfold calculate_stc_from_cr
  rw [if_neg (not_not_intro hac), if_neg hneg, if_pos htau]

theorem stc_zero_trees_zero_centrality_witness :
    ((0 : Matrix (Fin 2) (Fin 2) ℚ).transpose = 0 ∧
      (∀ i j, (0 : ℚ) ≤ (0 : Matrix (Fin 2) (Fin 2) ℚ) i j) ∧
      calculate_spanning_tree_count (calculate_kirchhoff_matrix (0 : Matrix (Fin 2) (Fin 2) ℚ)) ≤ 0) ∧
    calculate_stc_from_cr (0 : Matrix (Fin 2) (Fin 2) ℚ) = Except.ok (fun _ => 0) := by
  have h1 : (0 : Matrix (Fin 2) (Fin 2) ℚ).transpose = 0 := Matrix.transpose_zero
  have h2 : ∀ i j, (0 : ℚ) ≤ (0 : Matrix (Fin 2) (Fin 2) ℚ) i j := by
    intro i j; simp [Matrix.zero_apply]
  have h3 : calculate_spanning_tree_count (calculate_kirchhoff_matrix (0 : Matrix (Fin 2) (Fin 2) ℚ)) ≤ 0 := by
    simp [calculate_spanning_tree_count, calculate_cofactor, calculate_kirchhoff_matrix,
      Matrix.det_fin_one]
  exact ⟨⟨h1, h2, h3⟩, stc_zero_trees_zero_centrality _ h1 h2 h3⟩

/-- C10: for every non-empty square input matrix, `calculate_stc_from_cr` raises a
`ValueError` if and only if the matrix is not symmetric within `allclose`
tolerance or contains a negative entry; under the precondition symmetric and
non-negative its error branches are unreachable. -/
theorem stc_error_iff_not_symm_or_negative {n : ℕ}
    (cr : Matrix (Fin (n + 1)) (Fin (n + 1)) ℚ) :
    ((∃ msg, calculate_stc_from_cr cr = Except.error msg) ↔
      (¬ npAllclose cr cr.transpose ∨ ∃ i j, cr i j < 0)) ∧
    (cr.transpose = cr → (∀ i j, 0 ≤ cr i j) →
      ∃ v, calculate_stc_from_cr cr = Except.ok v) := by
  by_cases h1 : npAllclose cr cr.transpose
  · by_cases h2 : ∃ i j, cr i j < 0
    · have heq : calculate_stc_from_cr cr =
          Except.error "CR matrix must contain non-negative values" := by
        unfold calculate_stc_from_cr
        rw [if_neg (not_not_intro h1), if_pos h2]
      refine ⟨⟨fun _ => Or.inr h2, fun _ => ⟨_, heq⟩⟩, fun _ hnn => ?_⟩
      obtain ⟨i, j, hij⟩ := h2
      exact absurd (hnn i j) (not_le.mpr hij)
    · have hok : ∃ v, calculate_stc_from_cr cr = Except.ok v := by
        unfold calculate_stc_from_cr
        rw [if_neg (not_not_intro h1), if_neg h2]
        by_cases h3 : calculate_spanning_tree_count (calculate_kirchhoff_matrix cr) ≤ 0
        · rw [if_pos h3]; exact ⟨_, rfl⟩
        · rw [if_neg h3]; exact ⟨_, rfl⟩
      obtain ⟨v, hv⟩ := hok
      refine ⟨⟨fun hmsg => ?_, fun hor => ?_⟩, fun _ _ => ⟨v, hv⟩⟩
      · obtain ⟨msg, hmsg⟩ := hmsg
        rw [hv] at hmsg
        exact absurd hmsg (by simp)
      · rcases hor with h | h
        · exact absurd h1 h
        · exact absurd h h2
  · have heq : calculate_stc_from_cr cr = Except.error "CR matrix must be symmetric" := by
      unfold calculate_stc_from_cr
      rw [if_pos h1]
    refine ⟨⟨fun _ => Or.inl h1, fun _ => ⟨_, heq⟩⟩, fun hsym _ => ?_⟩
    exact absurd (npAllclose_of_eq _ _ hsym.symm) h1

theorem stc_error_iff_witness :
    (¬ npAllclose (!![0, 1; 0, 0] : Matrix (Fin 2) (Fin 2) ℚ)
        (!![0, 1; 0, 0] : Matrix (Fin 2) (Fin 2) ℚ).transpose ∨
      ∃ i j, (!![0, 1; 0, 0] : Matrix (Fin 2) (Fin 2) ℚ) i j < 0) ∧
    (∃ msg, calculate_stc_from_cr (!![0, 1; 0, 0] : Matrix (Fin 2) (Fin 2) ℚ) =
      Except.error msg) := by
  have h : ¬ npAllclose (!![0, 1; 0, 0] : Matrix (Fin 2) (Fin 2) ℚ)
      (!![0, 1; 0, 0] : Matrix (Fin 2) (Fin 2) ℚ).transpose := by
    intro hcl
    have h01 := hcl 0 1
    simp [Matrix.transpose_apply] at h01
    norm_num [npAtol, npRtol] at h01
  exact ⟨Or.inl h,
    (stc_error_iff_not_symm_or_negative (!![0, 1; 0, 0] : Matrix (Fin 2) (Fin 2) ℚ)).1.2
      (Or.inl h)⟩

/-- C3 (amended): both product construction paths (`CR = CA × CA^T` and the
continuous `CA = assignment × assignment^T`) return symmetric matrices, but the
diagonal is the squared row norm `Σ_t a[i,t]²` — non-negative, not zeroed. -/
theorem cr_ca_product_symm_diag {m k : ℕ} (a : Matrix (Fin m) (Fin k) ℚ) :
    (calculate_cr_matrix a).transpose = calculate_cr_matrix a ∧
    (start_analysis_ca_matrix a).transpose = start_analysis_ca_matrix a ∧
    (∀ i, calculate_cr_matrix a i i = ∑ t, a i t ^ 2 ∧ 0 ≤ calculate_cr_matrix a i i) ∧
    (∀ i, start_analysis_ca_matrix a i i = ∑ t, a i t ^ 2) := by
  unfold calculate_cr_matrix start_analysis_ca_matrix
  have hsymm : (a * a.transpose).transpose = a * a.transpose := by
    rw [Matrix.transpose_mul, Matrix.transpose_transpose]
  have hdiag : ∀ i, (a * a.transpose) i i = ∑ t, a i t ^ 2 := by
    intro i
    rw [Matrix.mul_apply]
    exact Finset.sum_congr rfl fun t _ => by rw [Matrix.transpose_apply, sq]
  refine ⟨hsymm, hsymm, fun i => ⟨hdiag i, ?_⟩, hdiag⟩
  rw [hdiag i]
  exact Finset.sum_nonneg fun t _ => sq_nonneg _

/-- C3 counterexample: the continuous collaboration-strength path does not zero
the diagonal: for the 1×1 assignment matrix `[[1]]`, `CA = A·Aᵀ` has diagonal
entry 1 ≠ 0 (and `calculate_cr_matrix` likewise). -/
theorem cr_ca_nonzero_diag_counterexample :
    calculate_cr_matrix (!![(1 : ℚ)]) 0 0 = 1 ∧
    start_analysis_ca_matrix (!![(1 : ℚ)]) 0 0 = 1 ∧ (1 : ℚ) ≠ 0 := by
  refine ⟨?_, ?_, one_ne_zero⟩ <;>
    simp [calculate_cr_matrix, start_analysis_ca_matrix, Matrix.mul_apply]

/-- `user_to_index = {user: i for i, user in enumerate(all_users)}` of
`MCSTCAnalysisService._calculate_role_coordination`; a later duplicate key
overwrites an earlier one, and lookup of an absent user yields `none`. -/
def user_to_index (all_users : List String) : String → Option ℕ :=
  all_users.enum.foldl (fun f p => Function.update f p.2 (some p.1)) (fun _ => none)

/-- The `total_cr` / `total_ca` accumulation loop of
`MCSTCAnalysisService._calculate_role_coordination`: sum of `mat[i, j]` over all
pairs `(user1, user2)` of the two role groups whose users are keys of
`user_to_index`. -/
def role_pair_total (mat : ℕ → ℕ → ℚ) (all_users : List String)
    (role1_users role2_users : Finset String) : ℚ :=
  ∑ u1 ∈ role1_users, ∑ u2 ∈ role2_users,
    match user_to_index all_users u1, user_to_index all_users u2 with
    | some i, some j => mat i j
    | _, _ => 0

/-- `MCSTCAnalysisService._calculate_role_coordination`: returns `0.0` for an
empty role group, else `total_ca / total_cr` when `total_cr > 0`, else `0.0`. -/
def calculate_role_coordination (cr_matrix ca_matrix : ℕ → ℕ → ℚ)
    (all_users : List String) (role1_users role2_users : Finset String) : ℚ :=
  if role1_users = ∅ ∨ role2_users = ∅ then 0
  else if 0 < role_pair_total cr_matrix all_users role1_users role2_users then
    role_pair_total ca_matrix all_users role1_users role2_users /
      role_pair_total cr_matrix all_users role1_users role2_users
  else 0

/-- Modelled from the spec: the ratio-based congruence scorer `score(CR, CA)`
(`STCService.calculate_stc`) is exercised by the repository's tests but its
implementation is not among the provided sources.  Following §4.3 of the spec:
`STC = |{(i,j), i≠j : CR[i][j] > 0 ∧ CA[i][j] > 0}| / |{(i,j), i≠j : CR[i][j] > 0}|`,
and `0.0` when the denominator is `0`. -/
def score_spec {m : ℕ} (cr ca : Matrix (Fin m) (Fin m) ℚ) : ℚ :=
  if (Finset.univ.filter fun p : Fin m × Fin m => p.1 ≠ p.2 ∧ 0 < cr p.1 p.2).card = 0 then 0
  else ((Finset.univ.filter fun p : Fin m × Fin m =>
      p.1 ≠ p.2 ∧ 0 < cr p.1 p.2 ∧ 0 < ca p.1 p.2).card : ℚ) /
    ((Finset.univ.filter fun p : Fin m × Fin m => p.1 ≠ p.2 ∧ 0 < cr p.1 p.2).card : ℚ)

theorem role_pair_total_nonneg (mat : ℕ → ℕ → ℚ) (all_users : List String)
    (role1 role2 : Finset String) (hnn : ∀ i j, 0 ≤ mat i j) :
    0 ≤ role_pair_total mat all_users role1 role2 := by
  unfold role_pair_total
  refine Finset.sum_nonneg fun u1 _ => Finset.sum_nonneg fun u2 _ => ?_
  cases user_to_index all_users u1 <;> cases user_to_index all_users u2 <;>
    simp [hnn]

theorem role_pair_total_mono (mat1 mat2 : ℕ → ℕ → ℚ) (all_users : List String)
    (role1 role2 : Finset String) (hle : ∀ i j, mat1 i j ≤ mat2 i j) :
    role_pair_total mat1 all_users role1 role2 ≤ role_pair_total mat2 all_users role1 role2 := by
  unfold role_pair_total
  refine Finset.sum_le_sum fun u1 _ => Finset.sum_le_sum fun u2 _ => ?_
  cases user_to_index all_users u1 <;> cases user_to_index all_users u2 <;>
    simp [hle]

/-- C2 (amended): the spec-modelled congruence score always lies in `[0, 1]`;
the pairwise role-coordination scores computed by
`_calculate_role_coordination` are non-negative for non-negative inputs and lie
in `[0, 1]` whenever `CA ≤ CR` entrywise, but they are not bounded by `1` in
general (see the counterexample). -/
theorem score_and_role_coordination_bounds {m : ℕ} (cr ca : Matrix (Fin m) (Fin m) ℚ)
    (crn can : ℕ → ℕ → ℚ) (all_users : List String) (role1 role2 : Finset String)
    (hcr : ∀ i j, 0 ≤ crn i j) (hca : ∀ i j, 0 ≤ can i j) :
    (0 ≤ score_spec cr ca ∧ score_spec cr ca ≤ 1) ∧
    0 ≤ calculate_role_coordination crn can all_users role1 role2 ∧
    ((∀ i j, can i j ≤ crn i j) →
      calculate_role_coordination crn can all_users role1 role2 ≤ 1) := by
  refine ⟨?_, ?_, ?_⟩
  · unfold score_spec
    by_cases h : (Finset.univ.filter fun p : Fin m × Fin m => p.1 ≠ p.2 ∧ 0 < cr p.1 p.2).card = 0
    · rw [if_pos h]; norm_num
    · rw [if_neg h]
      have hpos : (0 : ℚ) <
          ((Finset.univ.filter fun p : Fin m × Fin m => p.1 ≠ p.2 ∧ 0 < cr p.1 p.2).card : ℚ) := by
        exact_mod_cast Nat.pos_of_ne_zero h
      constructor
      · exact div_nonneg (by positivity) (le_of_lt hpos)
      · rw [div_le_one hpos]
        have hsub : (Finset.univ.filter fun p : Fin m × Fin m =>
            p.1 ≠ p.2 ∧ 0 < cr p.1 p.2 ∧ 0 < ca p.1 p.2) ⊆
            (Finset.univ.filter fun p : Fin m × Fin m => p.1 ≠ p.2 ∧ 0 < cr p.1 p.2) := by
          intro p hp
          simp only [Finset.mem_filter, Finset.mem_univ, true_and] at hp ⊢
          exact ⟨hp.1, hp.2.1⟩
        exact_mod_cast Finset.card_le_card hsub
  · unfold calculate_role_coordination
    split_ifs with h1 h2
    · exact le_refl 0
    · exact div_nonneg (role_pair_total_nonneg _ _ _ _ hca) (le_of_lt h2)
    · exact le_refl 0
  · intro hle
    unfold calculate_role_coordination
    split_ifs with h1 h2
    · norm_num
    · rw [div_le_one h2]
      exact role_pair_total_mono _ _ _ _ _ hle
    · norm_num

theorem score_and_role_coordination_bounds_witness :
    ((∀ i j : ℕ, (0 : ℚ) ≤ (fun _ _ => (0 : ℚ)) i j) ∧
      (∀ i j : ℕ, (0 : ℚ) ≤ (fun _ _ => (0 : ℚ)) i j)) ∧
    ((0 ≤ score_spec (0 : Matrix (Fin 1) (Fin 1) ℚ) 0 ∧
        score_spec (0 : Matrix (Fin 1) (Fin 1) ℚ) 0 ≤ 1) ∧
      0 ≤ calculate_role_coordination (fun _ _ => (0 : ℚ)) (fun _ _ => (0 : ℚ)) [] ∅ ∅ ∧
      ((∀ i j : ℕ, (fun _ _ => (0 : ℚ)) i j ≤ (fun _ _ => (0 : ℚ)) i j) →
        calculate_role_coordination (fun _ _ => (0 : ℚ)) (fun _ _ => (0 : ℚ)) [] ∅ ∅ ≤ 1)) := by
  have h : ∀ i j : ℕ, (0 : ℚ) ≤ (fun _ _ => (0 : ℚ)) i j := fun _ _ => le_refl 0
  exact ⟨⟨h, h⟩, score_and_role_coordination_bounds 0 0 _ _ [] ∅ ∅ h h⟩

/-- C2 counterexample: with `CR[0][1] = 1`, `CA[0][1] = 2` (both non-negative)
and role groups `{"a"}`, `{"b"}` over users `["a", "b"]`,
`_calculate_role_coordination` returns `2`, which is not in `[0, 1]`. -/
theorem role_coordination_above_one_counterexample :
    calculate_role_coordination
      (fun i j => if i = 0 ∧ j = 1 then 1 else 0)
      (fun i j => if i = 0 ∧ j = 1 then 2 else 0)
      ["a", "b"] {"a"} {"b"} = 2 ∧ ¬ ((2 : ℚ) ≤ 1) := by
  have h1 : user_to_index ["a", "b"] "a" = some 0 := by rfl
  have h2 : user_to_index ["a", "b"] "b" = some 1 := by rfl
  have hcr : role_pair_total (fun i j => if i = 0 ∧ j = 1 then 1 else 0)
      ["a", "b"] {"a"} {"b"} = 1 := by
    unfold role_pair_total
    rw [Finset.sum_singleton, Finset.sum_singleton, h1, h2]
    norm_num
  have hca : role_pair_total (fun i j => if i = 0 ∧ j = 1 then 2 else 0)
      ["a", "b"] {"a"} {"b"} = 2 := by
    unfold role_pair_total
    rw [Finset.sum_singleton, Finset.sum_singleton, h1, h2]
    norm_num
  constructor
  · unfold calculate_role_coordination
    rw [if_neg, hcr, hca]
    · norm_num
    · simp
  · norm_num

/-- C9: whenever the coordination scorer's denominator is 0 — an empty role
group, or zero total coordination requirement among the considered pairs —
the scorer returns exactly `0.0` and raises no error; the spec-modelled
counting scorer likewise returns `0.0` on a zero denominator. -/
theorem role_coordination_zero_denominator {m : ℕ} (cr ca : Matrix (Fin m) (Fin m) ℚ)
    (crn can : ℕ → ℕ → ℚ) (all_users : List String) (role1 role2 : Finset String) :
    ((role1 = ∅ ∨ role2 = ∅ ∨ role_pair_total crn all_users role1 role2 = 0) →
      calculate_role_coordination crn can all_users role1 role2 = 0) ∧
    ((Finset.univ.filter fun p : Fin m × Fin m => p.1 ≠ p.2 ∧ 0 < cr p.1 p.2).card = 0 →
      score_spec cr ca = 0) := by
  constructor
  · intro h
    unfold calculate_role_coordination
    rcases h with h | h | h
    · rw [if_pos (Or.inl h)]
    · rw [if_pos (Or.inr h)]
    · by_cases hemp : role1 = ∅ ∨ role2 = ∅
      · rw [if_pos hemp]
      · rw [if_neg hemp, if_neg (by rw [h]; exact lt_irrefl 0)]
  · intro h
    unfold score_spec
    rw [if_pos h]

theorem role_coordination_zero_denominator_witness :
    ((∅ : Finset String) = ∅ ∨ ({"b"} : Finset String) = ∅ ∨
      role_pair_total (fun _ _ => (1 : ℚ)) ["a", "b"] ∅ {"b"} = 0) ∧
    calculate_role_coordination (fun _ _ => (1 : ℚ)) (fun _ _ => (1 : ℚ))
      ["a", "b"] ∅ {"b"} = 0 ∧
    ((Finset.univ.filter fun p : Fin 1 × Fin 1 =>
        p.1 ≠ p.2 ∧ 0 < (0 : Matrix (Fin 1) (Fin 1) ℚ) p.1 p.2).card = 0 ∧
      score_spec (0 : Matrix (Fin 1) (Fin 1) ℚ) 0 = 0) := by
  have hcard : (Finset.univ.filter fun p : Fin 1 × Fin 1 =>
      p.1 ≠ p.2 ∧ 0 < (0 : Matrix (Fin 1) (Fin 1) ℚ) p.1 p.2).card = 0 := by
    rw [Finset.card_eq_zero, Finset.filter_eq_empty_iff]
    intro p _
    simp [Subsingleton.elim p.1 p.2]
  refine ⟨Or.inl rfl, ?_, hcard, ?_⟩
  · exact (role_coordination_zero_denominator (0 : Matrix (Fin 1) (Fin 1) ℚ) 0
      _ _ ["a", "b"] ∅ {"b"}).1 (Or.inl rfl)
  · exact (role_coordination_zero_denominator (0 : Matrix (Fin 1) (Fin 1) ℚ) 0
      (fun _ _ => (1 : ℚ)) (fun _ _ => (1 : ℚ)) ["a", "b"] ∅ {"b"}).2 hcard


/-- Dynamically shaped numpy 2-D array: a shape plus an entry function (entries
outside the shape are irrelevant). -/
structure NpMat where
  rows : ℕ
  cols : ℕ
  entry : ℕ → ℕ → ℚ

/-- `np.pad(m, ((0, 0), (0, extra)), constant_values=0)`: zero-pad columns. -/
def NpMat.padCols (m : NpMat) (extra : ℕ) : NpMat :=
  ⟨m.rows, m.cols + extra, fun i j => if j < m.cols then m.entry i j else 0⟩

/-- `np.pad(m, ((0, extra), (0, 0)), constant_values=0)`: zero-pad rows. -/
def NpMat.padRows (m : NpMat) (extra : ℕ) : NpMat :=
  ⟨m.rows + extra, m.cols, fun i j => if i < m.rows then m.entry i j else 0⟩

/-- `m[:, :newCols]`: truncate columns. -/
def NpMat.truncCols (m : NpMat) (newCols : ℕ) : NpMat :=
  ⟨m.rows, newCols, m.entry⟩

/-- Assignment step of `_align_matrix_dimensions`: pad the assignment matrix's
columns up to `max_files` when they fall short. -/
def align_assign_step (a : NpMat) (max_files : ℕ) : NpMat :=
  if a.cols < max_files then a.padCols (max_files - a.cols) else a

/-- First dependency step of `_align_matrix_dimensions`: pad the dependency
matrix's rows up to `max_files` when they fall short. -/
def align_dep_rows_step (d : NpMat) (max_files : ℕ) : NpMat :=
  if d.rows < max_files then d.padRows (max_files - d.rows) else d

/-- Second dependency step of `_align_matrix_dimensions`: force the dependency
matrix square by zero-padding or truncating its columns to its row count. -/
def align_dep_square_step (dm : NpMat) : NpMat :=
  if dm.rows ≠ dm.cols then
    if dm.cols < dm.rows then dm.padCols (dm.rows - dm.cols)
    else dm.truncCols dm.rows
  else dm

/-- `MCSTCAnalysisService._align_matrix_dimensions`: when
`abs(assign_cols - dep_rows) <= 5` (over ℕ: `max - min`), the matrices are
aligned by the three steps above; otherwise a `ValueError` naming both sizes is
raised. -/
def align_matrix_dimensions (assignment_matrix dependency_matrix : NpMat)
    (assign_name dep_name : String) : Except String (NpMat × NpMat) :=
  if max assignment_matrix.cols dependency_matrix.rows -
      min assignment_matrix.cols dependency_matrix.rows ≤ 5 then
    Except.ok
      (align_assign_step assignment_matrix
        (max assignment_matrix.cols dependency_matrix.rows),
       align_dep_square_step (align_dep_rows_step dependency_matrix
        (max assignment_matrix.cols dependency_matrix.rows)))
  else
    Except.error ("Matrix dimensions too different to align: " ++ assign_name ++ " has " ++
      toString assignment_matrix.cols ++ " files, " ++ dep_name ++ " has " ++
      toString dependency_matrix.rows ++ " files. Difference of " ++
      toString (max assignment_matrix.cols dependency_matrix.rows -
        min assignment_matrix.cols dependency_matrix.rows) ++
      " is too large (max 5 allowed).")

theorem align_assign_step_spec (a : NpMat) (M : ℕ) (haM : a.cols ≤ M) :
    (align_assign_step a M).rows = a.rows ∧ (align_assign_step a M).cols = M ∧
    ∀ i j, j < M →
      (align_assign_step a M).entry i j = if j < a.cols then a.entry i j else 0 := by
  unfold align_assign_step
  by_cases hc : a.cols < M
  · rw [if_pos hc]
    refine ⟨rfl, by simp [NpMat.padCols]; omega, fun i j _ => rfl⟩
  · rw [if_neg hc]
    have he : a.cols = M := by omega
    refine ⟨rfl, he, fun i j hj => ?_⟩
    rw [if_pos (by omega)]

theorem align_dep_rows_step_spec (d : NpMat) (M : ℕ) (hdM : d.rows ≤ M) :
    (align_dep_rows_step d M).rows = M ∧ (align_dep_rows_step d M).cols = d.cols ∧
    ∀ i j, i < M →
      (align_dep_rows_step d M).entry i j = if i < d.rows then d.entry i j else 0 := by
  unfold align_dep_rows_step
  by_cases hd : d.rows < M
  · rw [if_pos hd]
    refine ⟨by simp [NpMat.padRows]; omega, rfl, fun i j _ => rfl⟩
  · rw [if_neg hd]
    have he : d.rows = M := by omega
    refine ⟨he, rfl, fun i j hi => ?_⟩
    rw [if_pos (by omega)]

theorem align_dep_square_step_spec (dm : NpMat) :
    (align_dep_square_step dm).rows = dm.rows ∧
    (align_dep_square_step dm).cols = dm.rows ∧
    ∀ i j, j < dm.rows →
      (align_dep_square_step dm).entry i j = if j < dm.cols then dm.entry i j else 0 := by
  unfold align_dep_square_step
  by_cases h1 : dm.rows ≠ dm.cols
  · rw [if_pos h1]
    by_cases h2 : dm.cols < dm.rows
    · rw [if_pos h2]
      refine ⟨rfl, by simp [NpMat.padCols]; omega, fun i j _ => rfl⟩
    · rw [if_neg h2]
      refine ⟨rfl, rfl, fun i j hj => ?_⟩
      rw [if_pos (by omega)]
      rfl
  · rw [if_neg h1]
    rw [not_not] at h1
    refine ⟨rfl, h1.symm, fun i j hj => ?_⟩
    rw [if_pos (by omega)]

/-- C6: within the tolerance of 5 the aligner returns matrices with
`assignment.cols = dependency.rows = dependency.cols = max(assign_cols, dep_rows)`,
obtained only by zero-padding the smaller matrix and zero-padding or truncating
the dependency matrix's columns; above the tolerance it raises an error whose
message names both actual sizes. -/
theorem align_matrix_dimensions_spec (a d : NpMat) (an dn : String) :
    (max a.cols d.rows - min a.cols d.rows ≤ 5 →
      ∃ out : NpMat × NpMat, align_matrix_dimensions a d an dn = Except.ok out ∧
        out.1.rows = a.rows ∧
        out.1.cols = max a.cols d.rows ∧
        out.2.rows = max a.cols d.rows ∧
        out.2.cols = max a.cols d.rows ∧
        (∀ i j, j < max a.cols d.rows →
          out.1.entry i j = if j < a.cols then a.entry i j else 0) ∧
        (∀ i j, i < max a.cols d.rows → j < max a.cols d.rows →
          out.2.entry i j = if i < d.rows ∧ j < d.cols then d.entry i j else 0)) ∧
    (5 < max a.cols d.rows - min a.cols d.rows →
      align_matrix_dimensions a d an dn = Except.error
        ("Matrix dimensions too different to align: " ++ an ++ " has " ++
          toString a.cols ++ " files, " ++ dn ++ " has " ++
          toString d.rows ++ " files. Difference of " ++
          toString (max a.cols d.rows - min a.cols d.rows) ++
          " is too large (max 5 allowed).")) := by
  constructor
  · intro h
    obtain ⟨ha1, ha2, ha3⟩ := align_assign_step_spec a (max a.cols d.rows) (le_max_left _ _)
    obtain ⟨hr1, hr2, hr3⟩ := align_dep_rows_step_spec d (max a.cols d.rows) (le_max_right _ _)
    obtain ⟨hs1, hs2, hs3⟩ := align_dep_square_step_spec (align_dep_rows_step d (max a.cols d.rows))
    refine ⟨_, by unfold align_matrix_dimensions; rw [if_pos h], ha1, ha2, ?_, ?_, ha3, ?_⟩
    · rw [hs1, hr1]
    · rw [hs2, hr1]
    · intro i j hi hj
      rw [hs3 i j (by rw [hr1]; exact hj), hr2]
      by_cases hjc : j < d.cols
      · rw [if_pos hjc, hr3 i j hi]
        by_cases hir : i < d.rows
        · rw [if_pos hir, if_pos ⟨hir, hjc⟩]
        · rw [if_neg hir, if_neg (by tauto)]
      · rw [if_neg hjc, if_neg (by tauto)]
  · intro h
    unfold align_matrix_dimensions
    rw [if_neg (by omega)]

/-- `MCSTCService.__init__(self, project_id, iterations=1000)`: the estimator's
constructor state.  It has no seed parameter; `self.random_state` is an
unseeded `np.random.RandomState()`, so the random draws are ambient inputs of
the computation, modelled below as the explicit `orders` stream. -/
structure MCSTCService where
  project_id : String
  iterations : ℕ

/-- The constructor itself: `MCSTCService(project_id, iterations=1000)`. -/
def MCSTCService.init (project_id : String) (iterations : ℕ := 1000) : MCSTCService :=
  ⟨project_id, iterations⟩

/-- `MCSTCService._get_edges_from_matrix`: the `(i, j, w)` triples with `i < j`
and `cr[i, j] > 0`, in row-major order. -/
def get_edges_from_matrix {n : ℕ} (cr_matrix : Matrix (Fin n) (Fin n) ℚ) :
    List (Fin n × Fin n × ℚ) :=
  (List.finRange n).flatMap fun i =>
    (List.finRange n).filterMap fun j =>
      if i < j ∧ 0 < cr_matrix i j then some (i, j, cr_matrix i j) else none

/-- `MCSTCService._find_parent` with path compression.  The Python recursion is
unbounded; the embedding carries explicit fuel (fuel `n` suffices for every
parent map reachable by the algorithm, whose parent chains are acyclic). -/
def find_parent {n : ℕ} : ℕ → (Fin n → Fin n) → Fin n → (Fin n → Fin n) × Fin n
  | 0, parent, node => (parent, node)
  | fuel + 1, parent, node =>
    if parent node = node then (parent, node)
    else
      let r := find_parent fuel parent (parent node)
      (Function.update r.1 node r.2, r.2)

/-- `MCSTCService._union` (union by rank; source name `_union`): returns the
updated parent and rank maps and whether a merge happened. -/
def uf_union {n : ℕ} (parent : Fin n → Fin n) (rank : Fin n → ℕ) (x y : Fin n) :
    (Fin n → Fin n) × (Fin n → ℕ) × Bool :=
  let fx := find_parent n parent x
  let fy := find_parent n fx.1 y
  if fx.2 = fy.2 then (fy.1, rank, false)
  else if rank fx.2 < rank fy.2 then (Function.update fy.1 fx.2 fy.2, rank, true)
  else if rank fy.2 < rank fx.2 then (Function.update fy.1 fy.2 fx.2, rank, true)
  else (Function.update fy.1 fy.2 fx.2, Function.update rank fx.2 (rank fx.2 + 1), true)

/-- The edge-acceptance loop of `generate_random_spanning_tree`: walk the drawn
edge order, accept edges whose endpoints `_union` merges, stop once `n - 1`
edges are accepted.  (An out-of-range index — impossible for the draws the
source produces — is skipped.) -/
def kruskal_loop {n : ℕ} (edges : List (Fin n × Fin n × ℚ)) :
    List ℕ → (Fin n → Fin n) → (Fin n → ℕ) → List (Fin n × Fin n × ℚ) →
    List (Fin n × Fin n × ℚ)
  | [], _, _, tree_edges => tree_edges
  | idx :: rest, parent, rank, tree_edges =>
    match edges.get? idx with
    | none => kruskal_loop edges rest parent rank tree_edges
    | some (i, j, w) =>
      let u := uf_union parent rank i j
      if u.2.2 then
        if (tree_edges ++ [(i, j, w)]).length = n - 1 then tree_edges ++ [(i, j, w)]
        else kruskal_loop edges rest u.1 u.2.1 (tree_edges ++ [(i, j, w)])
      else kruskal_loop edges rest u.1 u.2.1 tree_edges

/-- One step of `tree_matrix[i, j] = weight; tree_matrix[j, i] = weight`. -/
def set_tree_edge {n : ℕ} (m : Matrix (Fin n) (Fin n) ℚ) (e : Fin n × Fin n × ℚ) :
    Matrix (Fin n) (Fin n) ℚ :=
  fun a b => if (a = e.1 ∧ b = e.2.1) ∨ (a = e.2.1 ∧ b = e.1) then e.2.2 else m a b

/-- `MCSTCService.generate_random_spanning_tree`, with the draw of
`np.random.choice(len(edges), size=len(edges), replace=False, p=probabilities)`
supplied as the explicit `order` argument (a permutation of the edge indices). -/
def generate_random_spanning_tree {n : ℕ} (cr_matrix : Matrix (Fin n) (Fin n) ℚ)
    (order : List ℕ) : Matrix (Fin n) (Fin n) ℚ :=
  if get_edges_from_matrix cr_matrix = [] then 0
  else
    (kruskal_loop (get_edges_from_matrix cr_matrix) order
      (fun i => i) (fun _ => 0) []).foldl set_tree_edge 0

/-- `MCSTCService.calculate_node_importance_in_tree`: weighted degrees,
normalized to sum 1 when the total is positive. -/
def calculate_node_importance_in_tree {n : ℕ}
    (tree_matrix : Matrix (Fin n) (Fin n) ℚ) : Fin n → ℚ :=
  fun i =>
    if 0 < ∑ a, ∑ b, tree_matrix a b then
      (∑ j, tree_matrix i j) / (∑ a, ∑ b, tree_matrix a b)
    else ∑ j, tree_matrix i j

/-- `MCSTCService.calculate_mc_stc_from_cr`, with the per-iteration random
draws supplied as the explicit `orders` stream. -/
def calculate_mc_stc_from_cr {n : ℕ} (s : MCSTCService)
    (cr_matrix : Matrix (Fin n) (Fin n) ℚ) (orders : ℕ → List ℕ) :
    Except String (Fin n → ℚ) :=
  if ¬ npAllclose cr_matrix cr_matrix.transpose then
    Except.error "CR matrix must be symmetric"
  else if (∑ i, ∑ j, cr_matrix i j) = 0 then
    Except.ok (fun _ => 0)
  else
    Except.ok (fun i =>
      (∑ k ∈ Finset.range s.iterations,
        calculate_node_importance_in_tree
          (generate_random_spanning_tree cr_matrix (orders k)) i) / (s.iterations : ℚ))

/-- C5 (amended): the constructor stores only `project_id` and `iterations` —
there is no seed parameter, and `self.random_state` is an unseeded
`RandomState`.  The Monte Carlo estimate is therefore a function of the
iteration count and the ambient draw sequence only: two instances with equal
iteration counts (regardless of project id) yield identical estimates on the
same CR matrix and the same ambient draws, while under different ambient draws
identically constructed instances can disagree (see the counterexample). -/
theorem mc_stc_determined_by_iterations_and_draws {n : ℕ} (s1 s2 : MCSTCService)
    (h : s1.iterations = s2.iterations) (cr : Matrix (Fin n) (Fin n) ℚ)
    (orders : ℕ → List ℕ) :
    calculate_mc_stc_from_cr s1 cr orders = calculate_mc_stc_from_cr s2 cr orders := by
  unfold calculate_mc_stc_from_cr
  rw [h]

/-- The 3-node triangle collaboration graph. -/
def triangleCR : Matrix (Fin 3) (Fin 3) ℚ := fun i j => if i = j then 0 else 1

theorem mc_stc_determined_witness :
    (MCSTCService.init "p1" 1).iterations = (MCSTCService.init "p2" 1).iterations ∧
    calculate_mc_stc_from_cr (MCSTCService.init "p1" 1) triangleCR (fun _ => [0, 1, 2]) =
      calculate_mc_stc_from_cr (MCSTCService.init "p2" 1) triangleCR (fun _ => [0, 1, 2]) :=
  ⟨rfl, mc_stc_determined_by_iterations_and_draws _ _ rfl _ _⟩

theorem triangleCR_edges : get_edges_from_matrix triangleCR =
    [(0, 1, 1), (0, 2, 1), (1, 2, 1)] := by
  show (List.finRange 3).flatMap _ = _
  rw [(by decide : List.finRange 3 = [0, 1, 2])]
  have c01 : (0 : Fin 3) < 1 ∧ 0 < triangleCR 0 1 :=
    ⟨by decide, by norm_num [(show triangleCR 0 1 = 1 from rfl)]⟩
  have c02 : (0 : Fin 3) < 2 ∧ 0 < triangleCR 0 2 :=
    ⟨by decide, by norm_num [(show triangleCR 0 2 = 1 from rfl)]⟩
  have c12 : (1 : Fin 3) < 2 ∧ 0 < triangleCR 1 2 :=
    ⟨by decide, by norm_num [(show triangleCR 1 2 = 1 from rfl)]⟩
  have c00 : ¬((0 : Fin 3) < 0 ∧ 0 < triangleCR 0 0) := fun h => absurd h.1 (by decide)
  have c10 : ¬((1 : Fin 3) < 0 ∧ 0 < triangleCR 1 0) := fun h => absurd h.1 (by decide)
  have c11 : ¬((1 : Fin 3) < 1 ∧ 0 < triangleCR 1 1) := fun h => absurd h.1 (by decide)
  have c20 : ¬((2 : Fin 3) < 0 ∧ 0 < triangleCR 2 0) := fun h => absurd h.1 (by decide)
  have c21 : ¬((2 : Fin 3) < 1 ∧ 0 < triangleCR 2 1) := fun h => absurd h.1 (by decide)
  have c22 : ¬((2 : Fin 3) < 2 ∧ 0 < triangleCR 2 2) := fun h => absurd h.1 (by decide)
  simp only [List.flatMap_cons, List.flatMap_nil, List.filterMap_cons, List.filterMap_nil,
    if_pos c01, if_pos c02, if_pos c12, if_neg c00, if_neg c10, if_neg c11,
    if_neg c20, if_neg c21, if_neg c22]
  rfl

/-- Star tree centered at node 0 (result of the draw `[0, 1, 2]`). -/
def triTree1 : Matrix (Fin 3) (Fin 3) ℚ :=
  fun a b => if (a = 0 ∧ b ≠ 0) ∨ (a ≠ 0 ∧ b = 0) then 1 else 0

/-- Star tree centered at node 2 (result of the draw `[2, 1, 0]`). -/
def triTree2 : Matrix (Fin 3) (Fin 3) ℚ :=
  fun a b => if (a = 2 ∧ b ≠ 2) ∨ (a ≠ 2 ∧ b = 2) then 1 else 0

theorem triangle_tree1 : generate_random_spanning_tree triangleCR [0, 1, 2] = triTree1 := by
  unfold generate_random_spanning_tree
  rw [triangleCR_edges, if_neg (by simp)]
  rw [(by rfl : kruskal_loop [((0 : Fin 3), (1 : Fin 3), (1 : ℚ)), (0, 2, 1), (1, 2, 1)]
    [0, 1, 2] (fun i => i) (fun _ => 0) [] = [(0, 1, 1), (0, 2, 1)])]
  ext a b
  fin_cases a <;> fin_cases b <;> rfl

theorem triangle_tree2 : generate_random_spanning_tree triangleCR [2, 1, 0] = triTree2 := by
  unfold generate_random_spanning_tree
  rw [triangleCR_edges, if_neg (by simp)]
  rw [(by rfl : kruskal_loop [((0 : Fin 3), (1 : Fin 3), (1 : ℚ)), (0, 2, 1), (1, 2, 1)]
    [2, 1, 0] (fun i => i) (fun _ => 0) [] = [(1, 2, 1), (0, 2, 1)])]
  ext a b
  fin_cases a <;> fin_cases b <;> rfl

theorem triTree1_importance : calculate_node_importance_in_tree triTree1 0 = 1/2 := by
  have hrow0 : (∑ j, triTree1 0 j) = 2 := by
    rw [Fin.sum_univ_three, (show triTree1 0 0 = 0 from rfl),
      (show triTree1 0 1 = 1 from rfl), (show triTree1 0 2 = 1 from rfl)]
    norm_num
  have hrow1 : (∑ j, triTree1 1 j) = 1 := by
    rw [Fin.sum_univ_three, (show triTree1 1 0 = 1 from rfl),
      (show triTree1 1 1 = 0 from rfl), (show triTree1 1 2 = 0 from rfl)]
    norm_num
  have hrow2 : (∑ j, triTree1 2 j) = 1 := by
    rw [Fin.sum_univ_three, (show triTree1 2 0 = 1 from rfl),
      (show triTree1 2 1 = 0 from rfl), (show triTree1 2 2 = 0 from rfl)]
    norm_num
  have htot : (∑ a, ∑ b, triTree1 a b) = 4 := by
    rw [Fin.sum_univ_three, hrow0, hrow1, hrow2]
    norm_num
  unfold calculate_node_importance_in_tree
  rw [htot, hrow0]
  norm_num

theorem triTree2_importance : calculate_node_importance_in_tree triTree2 0 = 1/4 := by
  have hrow0 : (∑ j, triTree2 0 j) = 1 := by
    rw [Fin.sum_univ_three, (show triTree2 0 0 = 0 from rfl),
      (show triTree2 0 1 = 0 from rfl), (show triTree2 0 2 = 1 from rfl)]
    norm_num
  have hrow1 : (∑ j, triTree2 1 j) = 1 := by
    rw [Fin.sum_univ_three, (show triTree2 1 0 = 0 from rfl),
      (show triTree2 1 1 = 0 from rfl), (show triTree2 1 2 = 1 from rfl)]
    norm_num
  have hrow2 : (∑ j, triTree2 2 j) = 2 := by
    rw [Fin.sum_univ_three, (show triTree2 2 0 = 1 from rfl),
      (show triTree2 2 1 = 1 from rfl), (show triTree2 2 2 = 0 from rfl)]
    norm_num
  have htot : (∑ a, ∑ b, triTree2 a b) = 4 := by
    rw [Fin.sum_univ_three, hrow0, hrow1, hrow2]
    norm_num
  unfold calculate_node_importance_in_tree
  rw [htot, hrow0]
  norm_num

theorem triangleCR_symm : triangleCR.transpose = triangleCR := by
  ext a b
  simp only [Matrix.transpose_apply, triangleCR]
  by_cases h : a = b <;> simp [h, eq_comm]

theorem triangleCR_sum : (∑ i, ∑ j, triangleCR i j) = 6 := by
  simp only [Fin.sum_univ_three]
  norm_num [(show triangleCR 0 0 = 0 from rfl), (show triangleCR 0 1 = 1 from rfl),
    (show triangleCR 0 2 = 1 from rfl), (show triangleCR 1 0 = 1 from rfl),
    (show triangleCR 1 1 = 0 from rfl), (show triangleCR 1 2 = 1 from rfl),
    (show triangleCR 2 0 = 1 from rfl), (show triangleCR 2 1 = 1 from rfl),
    (show triangleCR 2 2 = 0 from rfl)]

/-- C5 counterexample: two estimator instances constructed with identical
arguments (`MCSTCService("p", iterations=1)` — there is no seed argument to
pass) return different centrality estimates on the same CR matrix under two
different ambient random draws, so identical construction does not reproduce
identical estimates. -/
theorem mc_stc_ambient_randomness_counterexample :
    Except.map (fun v => v 0)
      (calculate_mc_stc_from_cr (MCSTCService.init "p" 1) triangleCR (fun _ => [0, 1, 2])) =
      Except.ok (1/2) ∧
    Except.map (fun v => v 0)
      (calculate_mc_stc_from_cr (MCSTCService.init "p" 1) triangleCR (fun _ => [2, 1, 0])) =
      Except.ok (1/4) ∧
    ((1 : ℚ)/2) ≠ 1/4 := by
  have hac : npAllclose triangleCR triangleCR.transpose :=
    npAllclose_of_eq _ _ triangleCR_symm.symm
  have hbranch : ∀ ords : ℕ → List ℕ,
      calculate_mc_stc_from_cr (MCSTCService.init "p" 1) triangleCR ords =
        Except.ok (fun i =>
          (∑ k ∈ Finset.range (MCSTCService.init "p" 1).iterations,
            calculate_node_importance_in_tree
              (generate_random_spanning_tree triangleCR (ords k)) i) /
          ((MCSTCService.init "p" 1).iterations : ℚ)) := by
    intro ords
    unfold calculate_mc_stc_from_cr
    rw [if_neg (not_not_intro hac), if_neg (by rw [triangleCR_sum]; norm_num)]
  refine ⟨?_, ?_, by norm_num⟩
  · rw [hbranch]
    simp only [Except.map, MCSTCService.init, Finset.sum_range_one]
    rw [triangle_tree1, triTree1_importance]
    norm_num
  · rw [hbranch]
    simp only [Except.map, MCSTCService.init, Finset.sum_range_one]
    rw [triangle_tree2, triTree2_importance]
    norm_num

theorem align_matrix_dimensions_spec_witness :
    ((max (NpMat.mk 1 2 fun _ _ => 1).cols (NpMat.mk 3 3 fun _ _ => 2).rows -
        min (NpMat.mk 1 2 fun _ _ => 1).cols (NpMat.mk 3 3 fun _ _ => 2).rows ≤ 5) ∧
      5 < max (NpMat.mk 1 9 fun _ _ => 1).cols (NpMat.mk 3 3 fun _ _ => 2).rows -
        min (NpMat.mk 1 9 fun _ _ => 1).cols (NpMat.mk 3 3 fun _ _ => 2).rows) ∧
    (∃ out : NpMat × NpMat,
      align_matrix_dimensions (NpMat.mk 1 2 fun _ _ => 1) (NpMat.mk 3 3 fun _ _ => 2)
          "Assignment" "Dependency" = Except.ok out ∧
        out.1.rows = (NpMat.mk 1 2 fun _ _ => 1).rows ∧
        out.1.cols = max (NpMat.mk 1 2 fun _ _ => 1).cols (NpMat.mk 3 3 fun _ _ => 2).rows ∧
        out.2.rows = max (NpMat.mk 1 2 fun _ _ => 1).cols (NpMat.mk 3 3 fun _ _ => 2).rows ∧
        out.2.cols = max (NpMat.mk 1 2 fun _ _ => 1).cols (NpMat.mk 3 3 fun _ _ => 2).rows ∧
        (∀ i j, j < max (NpMat.mk 1 2 fun _ _ => 1).cols (NpMat.mk 3 3 fun _ _ => 2).rows →
          out.1.entry i j =
            if j < (NpMat.mk 1 2 fun _ _ => 1).cols then (NpMat.mk 1 2 fun _ _ => 1).entry i j
            else 0) ∧
        (∀ i j, i < max (NpMat.mk 1 2 fun _ _ => 1).cols (NpMat.mk 3 3 fun _ _ => 2).rows →
          j < max (NpMat.mk 1 2 fun _ _ => 1).cols (NpMat.mk 3 3 fun _ _ => 2).rows →
          out.2.entry i j =
            if i < (NpMat.mk 3 3 fun _ _ => 2).rows ∧ j < (NpMat.mk 3 3 fun _ _ => 2).cols then
              (NpMat.mk 3 3 fun _ _ => 2).entry i j
            else 0)) ∧
    align_matrix_dimensions (NpMat.mk 1 9 fun _ _ => 1) (NpMat.mk 3 3 fun _ _ => 2)
        "Assignment" "Dependency" = Except.error
      ("Matrix dimensions too different to align: " ++ "Assignment" ++ " has " ++
        toString (NpMat.mk 1 9 fun _ _ => (1 : ℚ)).cols ++ " files, " ++ "Dependency" ++
        " has " ++ toString (NpMat.mk 3 3 fun _ _ => (2 : ℚ)).rows ++ " files. Difference of " ++
        toString (max (NpMat.mk 1 9 fun _ _ => (1 : ℚ)).cols
            (NpMat.mk 3 3 fun _ _ => (2 : ℚ)).rows -
          min (NpMat.mk 1 9 fun _ _ => (1 : ℚ)).cols (NpMat.mk 3 3 fun _ _ => (2 : ℚ)).rows) ++
        " is too large (max 5 allowed).") := by
  refine ⟨⟨by norm_num, by norm_num⟩, ?_, ?_⟩
  · exact (align_matrix_dimensions_spec (NpMat.mk 1 2 fun _ _ => 1)
      (NpMat.mk 3 3 fun _ _ => 2) "Assignment" "Dependency").1 (by norm_num)
  · exact (align_matrix_dimensions_spec (NpMat.mk 1 9 fun _ _ => 1)
      (NpMat.mk 3 3 fun _ _ => 2) "Assignment" "Dependency").2 (by norm_num)

theorem mem_get_edges_iff {n : ℕ} (cr : Matrix (Fin n) (Fin n) ℚ) (e : Fin n × Fin n × ℚ) :
    e ∈ get_edges_from_matrix cr ↔
      e.1 < e.2.1 ∧ 0 < cr e.1 e.2.1 ∧ e.2.2 = cr e.1 e.2.1 := by
  obtain ⟨i, j, w⟩ := e
  simp only [get_edges_from_matrix, List.mem_flatMap, List.mem_filterMap, List.mem_finRange,
    true_and, Option.ite_none_right_eq_some, Option.some_inj]
  constructor
  · rintro ⟨a, b, ⟨hab, habpos⟩, heq⟩
    cases heq
    exact ⟨hab, habpos, rfl⟩
  · rintro ⟨hij, hpos, hw⟩
    exact ⟨i, j, ⟨hij, hpos⟩, by rw [hw]⟩

theorem kruskal_loop_append {n : ℕ} (edges : List (Fin n × Fin n × ℚ)) (order : List ℕ) :
    ∀ (p : Fin n → Fin n) (rk : Fin n → ℕ) (acc : List (Fin n × Fin n × ℚ)),
      ∃ l, kruskal_loop edges order p rk acc = acc ++ l := by
  induction order with
  | nil =>
    intro p rk acc
    exact ⟨[], (List.append_nil acc).symm⟩
  | cons idx rest ih =>
    intro p rk acc
    simp only [kruskal_loop]
    cases hget : edges.get? idx with
    | none => exact ih p rk acc
    | some e =>
      obtain ⟨i, j, w⟩ := e
      simp only []
      by_cases hmerge : (uf_union p rk i j).2.2
      · rw [if_pos hmerge]
        by_cases hlen : (acc ++ [(i, j, w)]).length = n - 1
        · rw [if_pos hlen]
          exact ⟨[(i, j, w)], rfl⟩
        · rw [if_neg hlen]
          obtain ⟨l, hl⟩ := ih (uf_union p rk i j).1 (uf_union p rk i j).2.1 (acc ++ [(i, j, w)])
          exact ⟨(i, j, w) :: l, by rw [hl, List.append_assoc]; rfl⟩
      · rw [if_neg hmerge]
        exact ih _ _ acc

theorem kruskal_loop_subset {n : ℕ} (edges : List (Fin n × Fin n × ℚ)) (order : List ℕ) :
    ∀ (p : Fin n → Fin n) (rk : Fin n → ℕ) (acc : List (Fin n × Fin n × ℚ))
      (e : Fin n × Fin n × ℚ), e ∈ kruskal_loop edges order p rk acc →
      e ∈ acc ∨ e ∈ edges := by
  induction order with
  | nil =>
    intro p rk acc e he
    exact Or.inl he
  | cons idx rest ih =>
    intro p rk acc e he
    rw [kruskal_loop] at he
    revert he
    cases hget : edges.get? idx with
    | none => exact fun he => ih p rk acc e he
    | some a =>
      obtain ⟨i, j, w⟩ := a
      have hmem : (i, j, w) ∈ edges := List.get?_mem hget
      simp only []
      by_cases hmerge : (uf_union p rk i j).2.2
      · rw [if_pos hmerge]
        by_cases hlen : (acc ++ [(i, j, w)]).length = n - 1
        · rw [if_pos hlen]
          intro he
          rcases List.mem_append.mp he with h | h
          · exact Or.inl h
          · simp only [List.mem_singleton] at h
            exact Or.inr (h ▸ hmem)
        · rw [if_neg hlen]
          intro he
          rcases ih _ _ _ _ he with h | h
          · rcases List.mem_append.mp h with h' | h'
            · exact Or.inl h'
            · simp only [List.mem_singleton] at h'
              exact Or.inr (h' ▸ hmem)
          · exact Or.inr h
      · rw [if_neg hmerge]
        exact fun he => ih _ _ _ _ he

theorem find_parent_id {n : ℕ} (fuel : ℕ) (x : Fin n) :
    find_parent fuel (fun v => v) x = (fun v => v, x) := by
  cases fuel <;> simp [find_parent]

theorem uf_union_id_true {n : ℕ} (rk : Fin n → ℕ) (x y : Fin n) (h : x ≠ y) :
    (uf_union (fun v => v) rk x y).2.2 = true := by
  simp only [uf_union, find_parent_id]
  split_ifs with h1 h2 h3 <;> try rfl
  exact absurd h1 h

theorem kruskal_loop_ne_nil {n : ℕ} (edges : List (Fin n × Fin n × ℚ))
    (idx : ℕ) (rest : List ℕ) (i j : Fin n) (w : ℚ)
    (hget : edges.get? idx = some (i, j, w)) (hij : i ≠ j) :
    kruskal_loop edges (idx :: rest) (fun v => v) (fun _ => 0) [] ≠ [] := by
  have hu := uf_union_id_true (fun _ => (0 : ℕ)) i j hij
  rw [kruskal_loop, hget]
  simp only [hu, if_true, List.nil_append]
  by_cases hlen : ([(i, j, w)] : List (Fin n × Fin n × ℚ)).length = n - 1
  · rw [if_pos hlen]
    simp
  · rw [if_neg hlen]
    obtain ⟨l, hl⟩ := kruskal_loop_append edges rest
      (uf_union (fun v => v) (fun _ => 0) i j).1
      (uf_union (fun v => v) (fun _ => 0) i j).2.1 [(i, j, w)]
    rw [hl]
    simp

theorem foldl_set_tree_edge_cases {n : ℕ} (te : List (Fin n × Fin n × ℚ)) :
    ∀ (m : Matrix (Fin n) (Fin n) ℚ) (a b : Fin n),
      (te.foldl set_tree_edge m) a b = m a b ∨
        ∃ e ∈ te, (te.foldl set_tree_edge m) a b = e.2.2 := by
  induction te with
  | nil => intro m a b; exact Or.inl rfl
  | cons e te ih =>
    intro m a b
    simp only [List.foldl_cons]
    rcases ih (set_tree_edge m e) a b with h | ⟨e', he', h⟩
    · rw [h]
      by_cases hcond : (a = e.1 ∧ b = e.2.1) ∨ (a = e.2.1 ∧ b = e.1)
      · exact Or.inr ⟨e, List.mem_cons_self e te, by rw [set_tree_edge, if_pos hcond]⟩
      · left
        rw [set_tree_edge, if_neg hcond]
    · exact Or.inr ⟨e', List.mem_cons_of_mem _ he', h⟩

theorem foldl_set_tree_edge_last {n : ℕ} (te : List (Fin n × Fin n × ℚ))
    (m : Matrix (Fin n) (Fin n) ℚ) (e : Fin n × Fin n × ℚ) :
    ((te ++ [e]).foldl set_tree_edge m) e.1 e.2.1 = e.2.2 := by
  rw [List.foldl_append]
  simp [set_tree_edge]

theorem double_sum_pos {n : ℕ} (t : Matrix (Fin n) (Fin n) ℚ)
    (hnn : ∀ a b, 0 ≤ t a b) (i j : Fin n) (h : 0 < t i j) :
    0 < ∑ a, ∑ b, t a b := by
  calc (0 : ℚ) < t i j := h
    _ ≤ ∑ b, t i b := Finset.single_le_sum (fun b _ => hnn i b) (Finset.mem_univ _)
    _ ≤ ∑ a, ∑ b, t a b :=
      Finset.single_le_sum (fun a _ => Finset.sum_nonneg fun b _ => hnn a b)
        (Finset.mem_univ _)

theorem tree_total_pos {n : ℕ} (te : List (Fin n × Fin n × ℚ))
    (hne : te ≠ []) (hpos : ∀ e ∈ te, 0 < e.2.2) :
    0 < ∑ a, ∑ b, (te.foldl set_tree_edge (0 : Matrix (Fin n) (Fin n) ℚ)) a b := by
  have hnn : ∀ a b, 0 ≤ (te.foldl set_tree_edge (0 : Matrix (Fin n) (Fin n) ℚ)) a b := by
    intro a b
    rcases foldl_set_tree_edge_cases te 0 a b with h | ⟨e, he, h⟩
    · rw [h]; simp [Matrix.zero_apply]
    · rw [h]; exact le_of_lt (hpos e he)
  obtain ⟨l, e, hsplit⟩ : ∃ l e, te = l ++ [e] :=
    ⟨te.dropLast, te.getLast hne, (List.dropLast_append_getLast hne).symm⟩
  have hentry : (te.foldl set_tree_edge (0 : Matrix (Fin n) (Fin n) ℚ)) e.1 e.2.1 = e.2.2 := by
    conv_lhs => rw [hsplit]
    exact foldl_set_tree_edge_last l 0 e
  have hemem : e ∈ te := by rw [hsplit]; simp
  refine double_sum_pos _ hnn e.1 e.2.1 ?_
  rw [hentry]
  exact hpos e hemem

theorem importance_sums_one_of_total_pos {n : ℕ} (t : Matrix (Fin n) (Fin n) ℚ)
    (h : 0 < ∑ a, ∑ b, t a b) :
    ∑ i, calculate_node_importance_in_tree t i = 1 := by
  unfold calculate_node_importance_in_tree
  simp only [if_pos h]
  rw [← Finset.sum_div, div_self (ne_of_gt h)]

theorem spanning_tree_importance_sum {n : ℕ} (cr : Matrix (Fin n) (Fin n) ℚ)
    (order : List ℕ) (hedne : get_edges_from_matrix cr ≠ [])
    (hperm : order.Perm (List.range (get_edges_from_matrix cr).length)) :
    ∑ i, calculate_node_importance_in_tree (generate_random_spanning_tree cr order) i = 1 := by
  obtain ⟨idx, rest, hcons⟩ : ∃ idx rest, order = idx :: rest := by
    cases horder : order with
    | nil =>
      rw [horder] at hperm
      have := hperm.length_eq
      simp [List.length_range] at this
      exact absurd (List.length_eq_zero.mp this.symm) hedne
    | cons a l => exact ⟨a, l, rfl⟩
  have hidx : idx < (get_edges_from_matrix cr).length := by
    have hmemo : idx ∈ order := by rw [hcons]; exact List.mem_cons_self _ _
    have := hperm.mem_iff.mp hmemo
    simpa [List.mem_range] using this
  obtain ⟨e, hget⟩ : ∃ e, (get_edges_from_matrix cr).get? idx = some e :=
    ⟨_, List.get?_eq_get hidx⟩
  obtain ⟨i, j, w⟩ := e
  have hmem : (i, j, w) ∈ get_edges_from_matrix cr := List.get?_mem hget
  have hij : i ≠ j := ne_of_lt ((mem_get_edges_iff cr _).mp hmem).1
  unfold generate_random_spanning_tree
  rw [if_neg hedne]
  apply importance_sums_one_of_total_pos
  apply tree_total_pos
  · rw [hcons]
    exact kruskal_loop_ne_nil _ idx rest i j w hget hij
  · intro e he
    rcases kruskal_loop_subset _ _ _ _ _ _ he with h | h
    · exact absurd h (List.not_mem_nil e)
    · have hc := (mem_get_edges_iff cr e).mp h
      rw [hc.2.2]
      exact hc.2.1

/-- C1 (amended): on every symmetric, non-negative, zero-diagonal CR matrix with
at least one positive off-diagonal entry, the Monte Carlo centrality estimates
returned by `calculate_mc_stc_from_cr` sum to 1 over all nodes, for every
possible random draw and any positive iteration count.  The exact spanning-tree
method does not share this property: its values sum to
`Σ_i Σ_j P[i,j] / τ`, which is 4 on the 3-node path graph (see the
counterexample). -/
theorem mc_stc_values_sum_to_one {n : ℕ} (s : MCSTCService)
    (cr : Matrix (Fin n) (Fin n) ℚ) (orders : ℕ → List ℕ)
    (hsym : cr.transpose = cr) (hnn : ∀ i j, 0 ≤ cr i j) (hdiag : ∀ i, cr i i = 0)
    (hoff : ∃ i j, i ≠ j ∧ 0 < cr i j) (hiter : 0 < s.iterations)
    (horders : ∀ k, (orders k).Perm (List.range (get_edges_from_matrix cr).length)) :
    ∃ v, calculate_mc_stc_from_cr s cr orders = Except.ok v ∧ ∑ i, v i = 1 := by
  have hsymm' : ∀ i j, cr i j = cr j i := by
    intro i j
    have hc := congrFun (congrFun hsym j) i
    rw [Matrix.transpose_apply] at hc
    exact hc
  obtain ⟨i0, j0, hne0, hpos0⟩ := hoff
  have hedne : get_edges_from_matrix cr ≠ [] := by
    rcases lt_or_gt_of_ne hne0 with hlt | hgt
    · intro hnil
      have hm : (i0, j0, cr i0 j0) ∈ get_edges_from_matrix cr :=
        (mem_get_edges_iff cr _).mpr ⟨hlt, hpos0, rfl⟩
      rw [hnil] at hm
      exact List.not_mem_nil _ hm
    · intro hnil
      have hpos' : 0 < cr j0 i0 := by rw [← hsymm']; exact hpos0
      have hm : (j0, i0, cr j0 i0) ∈ get_edges_from_matrix cr :=
        (mem_get_edges_iff cr _).mpr ⟨hgt, hpos', rfl⟩
      rw [hnil] at hm
      exact List.not_mem_nil _ hm
  have hac : npAllclose cr cr.transpose := npAllclose_of_eq _ _ hsym.symm
  have hsum_pos : 0 < ∑ a, ∑ b, cr a b := double_sum_pos cr hnn i0 j0 hpos0
  unfold calculate_mc_stc_from_cr
  rw [if_neg (not_not_intro hac), if_neg (ne_of_gt hsum_pos)]
  refine ⟨_, rfl, ?_⟩
  rw [← Finset.sum_div, Finset.sum_comm]
  rw [Finset.sum_congr rfl
    (fun k _ => spanning_tree_importance_sum cr (orders k) hedne (horders k))]
  rw [Finset.sum_const, Finset.card_range, nsmul_eq_mul, mul_one]
  exact div_self (Nat.cast_ne_zero.mpr (by omega))

theorem mc_stc_values_sum_to_one_witness :
    (triangleCR.transpose = triangleCR ∧
      (∀ i j, 0 ≤ triangleCR i j) ∧
      (∀ i, triangleCR i i = 0) ∧
      (∃ i j, i ≠ j ∧ 0 < triangleCR i j) ∧
      0 < (MCSTCService.init "p" 1).iterations ∧
      (∀ k : ℕ, ([0, 1, 2] : List ℕ).Perm
        (List.range (get_edges_from_matrix triangleCR).length))) ∧
    (∃ v, calculate_mc_stc_from_cr (MCSTCService.init "p" 1) triangleCR
        (fun _ => [0, 1, 2]) = Except.ok v ∧ ∑ i, v i = 1) := by
  have h1 : triangleCR.transpose = triangleCR := triangleCR_symm
  have h2 : ∀ i j, 0 ≤ triangleCR i j := by
    intro i j
    unfold triangleCR
    split_ifs <;> norm_num
  have h3 : ∀ i, triangleCR i i = 0 := by
    intro i
    simp [triangleCR]
  have h4 : ∃ i j, i ≠ j ∧ 0 < triangleCR i j :=
    ⟨0, 1, by decide, by norm_num [(show triangleCR 0 1 = 1 from rfl)]⟩
  have h5 : 0 < (MCSTCService.init "p" 1).iterations := by
    norm_num [MCSTCService.init]
  have h6 : ∀ k : ℕ, ([0, 1, 2] : List ℕ).Perm
      (List.range (get_edges_from_matrix triangleCR).length) := by
    intro k
    rw [triangleCR_edges]
    decide
  exact ⟨⟨h1, h2, h3, h4, h5, h6⟩,
    mc_stc_values_sum_to_one (MCSTCService.init "p" 1) triangleCR (fun _ => [0, 1, 2])
      h1 h2 h3 h4 h5 h6⟩

/-- The 3-node path graph `0 - 1 - 2` with unit weights. -/
def path3 : Matrix (Fin 3) (Fin 3) ℚ :=
  fun i j =>
    if (i = 0 ∧ j = 1) ∨ (i = 1 ∧ j = 0) ∨ (i = 1 ∧ j = 2) ∨ (i = 2 ∧ j = 1) then 1 else 0

theorem path3_symm : path3.transpose = path3 := by
  ext a b
  fin_cases a <;> fin_cases b <;> rfl

theorem path3_kirchhoff :
    calculate_kirchhoff_matrix path3 = !![1, -1, 0; -1, 2, -1; 0, -1, 1] := by
  ext a b
  fin_cases a <;> fin_cases b <;>
    simp [calculate_kirchhoff_matrix, Matrix.sub_apply, Matrix.diagonal_apply,
      Fin.sum_univ_three, path3] <;>
    first
      | decide
      | norm_num

theorem path3_tau :
    calculate_spanning_tree_count (calculate_kirchhoff_matrix path3) = 1 := by
  rw [path3_kirchhoff]
  unfold calculate_spanning_tree_count calculate_cofactor
  have hsub : ((!![1, -1, 0; -1, 2, -1; 0, -1, 1] : Matrix (Fin 3) (Fin 3) ℚ).submatrix
      (Fin.succAbove 0) (Fin.succAbove 0)) = !![2, -1; -1, 1] := by
    ext a b
    fin_cases a <;> fin_cases b <;> rfl
  rw [hsub, Matrix.det_fin_two_of]
  norm_num

theorem path3_participation :
    calculate_edge_participation path3 (calculate_kirchhoff_matrix path3) = path3 := by
  rw [path3_kirchhoff]
  ext a b
  fin_cases a <;> fin_cases b <;>
    simp [calculate_edge_participation, path3] <;>
    first
      | decide
      | norm_num

/-- C1 counterexample: the exact spanning-tree centrality method succeeds
non-degenerately on the 3-node path graph (`τ = 1 > 0`, symmetric, non-negative,
zero diagonal), yet the per-contributor values it returns sum to 4, not 1. -/
theorem stc_exact_sum_counterexample :
    (∃ v, calculate_stc_from_cr path3 = Except.ok v ∧ ∑ i, v i = 4) ∧ (4 : ℚ) ≠ 1 := by
  have hneg : ¬ ∃ i j, path3 i j < 0 := by
    push_neg
    intro i j
    unfold path3
    split_ifs <;> norm_num
  have htau : ¬ calculate_spanning_tree_count (calculate_kirchhoff_matrix path3) ≤ 0 := by
    rw [path3_tau]
    norm_num
  have hres : calculate_stc_from_cr path3 = Except.ok (fun i =>
      (∑ j, calculate_edge_participation path3 (calculate_kirchhoff_matrix path3) i j) /
        calculate_spanning_tree_count (calculate_kirchhoff_matrix path3)) := by
    unfold calculate_stc_from_cr
    rw [if_neg (not_not_intro (npAllclose_of_eq _ _ path3_symm.symm)), if_neg hneg,
      if_neg htau]
  refine ⟨⟨_, hres, ?_⟩, by norm_num⟩
  have hrow0 : (∑ j, path3 0 j) = 1 := by
    rw [Fin.sum_univ_three, (show path3 0 0 = 0 from rfl), (show path3 0 1 = 1 from rfl),
      (show path3 0 2 = 0 from rfl)]
    norm_num
  have hrow1 : (∑ j, path3 1 j) = 2 := by
    rw [Fin.sum_univ_three, (show path3 1 0 = 1 from rfl), (show path3 1 1 = 0 from rfl),
      (show path3 1 2 = 1 from rfl)]
    norm_num
  have hrow2 : (∑ j, path3 2 j) = 1 := by
    rw [Fin.sum_univ_three, (show path3 2 0 = 0 from rfl), (show path3 2 1 = 1 from rfl),
      (show path3 2 2 = 0 from rfl)]
    norm_num
  simp only [path3_participation, path3_tau]
  rw [Fin.sum_univ_three, hrow0, hrow1, hrow2]
  norm_num

/-- `r` is the representative of `w` in the parent forest `p`: it is a fixpoint
of `p` reachable from `w` by iterating `p`. -/
def Root {n : ℕ} (p : Fin n → Fin n) (w r : Fin n) : Prop :=
  p r = r ∧ ∃ k, p^[k] w = r

/-- The union-find invariant maintained by union-by-rank: the rank strictly
increases along parent pointers, which makes parent chains acyclic. -/
def UFInv {n : ℕ} (p : Fin n → Fin n) (rk : Fin n → ℕ) : Prop :=
  ∀ v, p v ≠ v → rk v < rk (p v)

/-- Two nodes share a representative. -/
def sameRoot {n : ℕ} (p : Fin n → Fin n) (a b : Fin n) : Prop :=
  ∃ r, Root p a r ∧ Root p b r

/-- Number of union-find classes (roots of the parent forest). -/
def nroots {n : ℕ} (p : Fin n → Fin n) : ℕ :=
  (Finset.univ.filter fun v => p v = v).card

theorem iterate_fixed {n : ℕ} {p : Fin n → Fin n} {r : Fin n} (h : p r = r) :
    ∀ k, p^[k] r = r := by
  intro k
  induction k with
  | zero => rfl
  | succ k ih => rw [Function.iterate_succ_apply', ih, h]

theorem Root.unique {n : ℕ} {p : Fin n → Fin n} {w r1 r2 : Fin n}
    (h1 : Root p w r1) (h2 : Root p w r2) : r1 = r2 := by
  obtain ⟨hf1, k1, hk1⟩ := h1
  obtain ⟨hf2, k2, hk2⟩ := h2
  rcases le_total k1 k2 with h | h
  · obtain ⟨d, rfl⟩ := Nat.exists_eq_add_of_le h
    rw [Nat.add_comm, Function.iterate_add_apply, hk1, iterate_fixed hf1] at hk2
    exact hk2
  · obtain ⟨d, rfl⟩ := Nat.exists_eq_add_of_le h
    rw [Nat.add_comm, Function.iterate_add_apply, hk2, iterate_fixed hf2] at hk1
    exact hk1.symm

theorem Root.step {n : ℕ} {p : Fin n → Fin n} {w r : Fin n}
    (h : Root p (p w) r) : Root p w r := by
  obtain ⟨hf, k, hk⟩ := h
  exact ⟨hf, k + 1, by rw [Function.iterate_succ_apply]; exact hk⟩

theorem rank_le_iterate {n : ℕ} {p : Fin n → Fin n} {rk : Fin n → ℕ}
    (hUF : UFInv p rk) (u : Fin n) : ∀ k, rk u ≤ rk (p^[k] u) := by
  intro k
  induction k with
  | zero => exact le_refl _
  | succ k ih =>
    rw [Function.iterate_succ_apply']
    by_cases h : p (p^[k] u) = p^[k] u
    · rw [h]; exact ih
    · exact le_trans ih (le_of_lt (hUF _ h))

theorem rank_lt_of_root {n : ℕ} {p : Fin n → Fin n} {rk : Fin n → ℕ}
    (hUF : UFInv p rk) {v r : Fin n} (hroot : Root p v r) (hv : p v ≠ v) :
    rk v < rk r := by
  obtain ⟨hf, k, hk⟩ := hroot
  cases k with
  | zero =>
    exact absurd (hk : v = r) (by rintro rfl; exact hv hf)
  | succ k =>
    rw [Function.iterate_succ_apply] at hk
    calc rk v < rk (p v) := hUF v hv
      _ ≤ rk (p^[k] (p v)) := rank_le_iterate hUF (p v) k
      _ = rk r := by rw [hk]

/-- Under the rank invariant every chain reaches a fixpoint within `n` steps. -/
theorem exists_fix_of_UFInv {n : ℕ} {p : Fin n → Fin n} {rk : Fin n → ℕ}
    (hUF : UFInv p rk) (w : Fin n) : p (p^[n] w) = p^[n] w := by
  by_contra hfix
  -- if no iterate up to n is fixed, ranks strictly increase, giving n+1
  -- distinct values in `Fin n`
  have hnofix : ∀ k ≤ n, p (p^[k] w) ≠ p^[k] w := by
    intro k hk hfk
    have hconst : ∀ d, p^[k + d] w = p^[k] w := by
      intro d
      induction d with
      | zero => rfl
      | succ d ih =>
        rw [← Nat.add_assoc, Function.iterate_succ_apply', ih, hfk]
    have h2 := hconst (n - k)
    rw [(by omega : k + (n - k) = n)] at h2
    exact hfix (by rw [h2]; exact hfk)
  have hmono : ∀ i j, i < j → j ≤ n → rk (p^[i] w) < rk (p^[j] w) := by
    intro i j hij hj
    induction j with
    | zero => omega
    | succ j ih =>
      rw [Function.iterate_succ_apply']
      have hstep : rk (p^[j] w) < rk (p (p^[j] w)) :=
        hUF _ (hnofix j (by omega))
      rcases Nat.lt_succ_iff_lt_or_eq.mp hij with h | h
      · exact lt_trans (ih h (by omega)) hstep
      · rw [h]; exact hstep
  have hinj : Function.Injective (fun k : Fin (n + 1) => p^[k.1] w) := by
    intro a b hab
    simp only at hab
    by_contra hne
    rcases lt_or_gt_of_ne (fun h : a.1 = b.1 => hne (Fin.ext h)) with h | h
    · have := hmono a.1 b.1 h (Nat.lt_succ_iff.mp b.2)
      rw [hab] at this
      exact lt_irrefl _ this
    · have := hmono b.1 a.1 h (Nat.lt_succ_iff.mp a.2)
      rw [hab] at this
      exact lt_irrefl _ this
  have := Fintype.card_le_of_injective _ hinj
  simp [Fintype.card_fin] at this

theorem exists_root {n : ℕ} {p : Fin n → Fin n} {rk : Fin n → ℕ}
    (hUF : UFInv p rk) (w : Fin n) : ∃ r, Root p w r :=
  ⟨p^[n] w, exists_fix_of_UFInv hUF w, n, rfl⟩

theorem sameRoot_refl {n : ℕ} {p : Fin n → Fin n} {rk : Fin n → ℕ}
    (hUF : UFInv p rk) (a : Fin n) : sameRoot p a a := by
  obtain ⟨r, hr⟩ := exists_root hUF a
  exact ⟨r, hr, hr⟩

theorem sameRoot_symm {n : ℕ} {p : Fin n → Fin n} {a b : Fin n}
    (h : sameRoot p a b) : sameRoot p b a := by
  obtain ⟨r, h1, h2⟩ := h
  exact ⟨r, h2, h1⟩

theorem sameRoot_trans {n : ℕ} {p : Fin n → Fin n} {a b c : Fin n}
    (h1 : sameRoot p a b) (h2 : sameRoot p b c) : sameRoot p a c := by
  obtain ⟨r, ha, hb⟩ := h1
  obtain ⟨r', hb', hc⟩ := h2
  rw [hb.unique hb'] at ha
  exact ⟨r', ha, hc⟩

theorem root_of_fixed {n : ℕ} {p : Fin n → Fin n} {r : Fin n} (h : p r = r) :
    Root p r r := ⟨h, 0, rfl⟩

/-- In the compressed map each step is still a reachability step of the
original forest, so reaching `r'` in the compressed map implies reaching it in
the original one. -/
theorem reach_update_nonroot_to_orig {n : ℕ} {p : Fin n → Fin n} {v r r' : Fin n}
    (hroot : Root p v r) :
    ∀ k u, (Function.update p v r)^[k] u = r' → ∃ m, p^[m] u = r' := by
  intro k
  induction k with
  | zero => intro u hk; exact ⟨0, hk⟩
  | succ k ih =>
    intro u hk
    rw [Function.iterate_succ_apply] at hk
    by_cases hu : u = v
    · rw [hu, Function.update_same] at hk
      obtain ⟨m, hm⟩ := ih r hk
      obtain ⟨k0, hk0⟩ := hroot.2
      refine ⟨m + k0, ?_⟩
      rw [hu, Function.iterate_add_apply, hk0]
      exact hm
    · rw [Function.update_noteq hu] at hk
      obtain ⟨m, hm⟩ := ih (p u) hk
      exact ⟨m + 1, by rw [Function.iterate_add_apply]; simpa using hm⟩

/-- Conversely, reachability in the original forest survives path
compression. -/
theorem reach_orig_to_update_nonroot {n : ℕ} {p : Fin n → Fin n} {v r r' : Fin n}
    (hroot : Root p v r) (hfixp : p r' = r') :
    ∀ k u, p^[k] u = r' → ∃ m, (Function.update p v r)^[m] u = r' := by
  intro k
  induction k with
  | zero => intro u hk; exact ⟨0, hk⟩
  | succ k ih =>
    intro u hk
    rw [Function.iterate_succ_apply] at hk
    by_cases hu : u = v
    · have hvr' : Root p v r' :=
        ⟨hfixp, k + 1, by rw [Function.iterate_succ_apply, ← hu]; exact hk⟩
      have hrr : r = r' := hroot.unique hvr'
      refine ⟨1, ?_⟩
      rw [hu]
      simpa [Function.update_same] using hrr
    · obtain ⟨m, hm⟩ := ih (p u) hk
      refine ⟨m + 1, ?_⟩
      rw [Function.iterate_add_apply]
      simpa [Function.update_noteq hu] using hm

/-- Path compression: redirecting a non-root node straight to its
representative changes no representative. -/
theorem root_update_nonroot {n : ℕ} {p : Fin n → Fin n} {v r : Fin n}
    (hroot : Root p v r) (hv : p v ≠ v) :
    ∀ u r', Root (Function.update p v r) u r' ↔ Root p u r' := by
  have hrv : r ≠ v := by
    rintro rfl
    exact hv hroot.1
  have hqfix : ∀ w, Function.update p v r w = w ↔ p w = w := by
    intro w
    by_cases hw : w = v
    · subst hw
      rw [Function.update_same]
      exact ⟨fun h => absurd h hrv, fun h => absurd h hv⟩
    · rw [Function.update_noteq hw]
  intro u r'
  constructor
  · rintro ⟨hfix', k, hk⟩
    have hfixp : p r' = r' := (hqfix r').mp hfix'
    obtain ⟨m, hm⟩ := reach_update_nonroot_to_orig hroot k u hk
    exact ⟨hfixp, m, hm⟩
  · rintro ⟨hfixp, k, hk⟩
    obtain ⟨m, hm⟩ := reach_orig_to_update_nonroot hroot hfixp k u hk
    exact ⟨(hqfix r').mpr hfixp, m, hm⟩


/-- Reaching `ra` in `q` yields a path to `rb` after linking `ra` under `rb`. -/
theorem reach_update_root_left {n : ℕ} {q : Fin n → Fin n} {ra rb : Fin n} :
    ∀ k u, q^[k] u = ra → ∃ m, (Function.update q ra rb)^[m] u = rb := by
  intro k
  induction k with
  | zero =>
    intro u hk
    have hu : u = ra := hk
    exact ⟨1, by rw [hu, Function.iterate_one, Function.update_same]⟩
  | succ k ih =>
    intro u hk
    rw [Function.iterate_succ_apply] at hk
    by_cases hu : u = ra
    · exact ⟨1, by rw [hu, Function.iterate_one, Function.update_same]⟩
    · obtain ⟨m, hm⟩ := ih (q u) hk
      refine ⟨m + 1, ?_⟩
      rw [Function.iterate_add_apply]
      simpa [Function.update_noteq hu] using hm

/-- A `q`-path to a representative other than `ra` never passes `ra`, so it
survives linking `ra` under `rb`. -/
theorem reach_update_root_right {n : ℕ} {q : Fin n → Fin n} {ra rb r' : Fin n}
    (hra : q ra = ra) (hfixq : q r' = r') (hr : r' ≠ ra) :
    ∀ k u, q^[k] u = r' → ∃ m, (Function.update q ra rb)^[m] u = r' := by
  intro k
  induction k with
  | zero => intro u hk; exact ⟨0, hk⟩
  | succ k ih =>
    intro u hk
    rw [Function.iterate_succ_apply] at hk
    by_cases hu : u = ra
    · exfalso
      have hr2 : Root q ra r' := ⟨hfixq, k + 1, by
        rw [Function.iterate_succ_apply, ← hu]; exact hk⟩
      exact hr ((root_of_fixed hra).unique hr2).symm
    · obtain ⟨m, hm⟩ := ih (q u) hk
      refine ⟨m + 1, ?_⟩
      rw [Function.iterate_add_apply]
      simpa [Function.update_noteq hu] using hm

/-- Linking one root under another: the class of `ra` is redirected to `rb`;
all other representatives are unchanged. -/
theorem root_update_root {n : ℕ} {q : Fin n → Fin n} {ra rb : Fin n}
    (hra : q ra = ra) (hrb : q rb = rb) (hne : ra ≠ rb) :
    ∀ u r', Root (Function.update q ra rb) u r' ↔
      ((Root q u ra ∧ r' = rb) ∨ (Root q u r' ∧ r' ≠ ra)) := by
  intro u r'
  constructor
  · rintro ⟨hfix', k, hk⟩
    have hr'ne : r' ≠ ra := by
      rintro rfl
      rw [Function.update_same] at hfix'
      exact hne hfix'.symm
    have hfixq : q r' = r' := by
      rw [Function.update_noteq hr'ne] at hfix'
      exact hfix'
    induction k generalizing u with
    | zero =>
      have hu : u = r' := hk
      exact Or.inr ⟨⟨hfixq, 0, hu⟩, hr'ne⟩
    | succ k ih =>
      rw [Function.iterate_succ_apply] at hk
      by_cases hu : u = ra
      · rcases ih rb (by rw [hu, Function.update_same] at hk; exact hk) with
          ⟨hrba, _⟩ | ⟨hrbr', _⟩
        · exact absurd (hrba.unique (root_of_fixed hrb)) hne
        · have hr'rb : r' = rb := (root_of_fixed hrb).unique hrbr' |>.symm
          exact Or.inl ⟨by rw [hu]; exact root_of_fixed hra, hr'rb⟩
      · rcases ih (q u) (by rw [Function.update_noteq hu] at hk; exact hk) with
          ⟨hqa, hr⟩ | ⟨hqr', hr⟩
        · exact Or.inl ⟨hqa.step, hr⟩
        · exact Or.inr ⟨hqr'.step, hr⟩
  · rintro (⟨⟨_, k, hk⟩, hrbeq⟩ | ⟨⟨hfixq, k, hk⟩, hr⟩)
    · rw [hrbeq]
      have hfix' : Function.update q ra rb rb = rb := by
        rw [Function.update_noteq (Ne.symm hne)]
        exact hrb
      obtain ⟨m, hm⟩ := reach_update_root_left k u hk
      exact ⟨hfix', m, hm⟩
    · have hfix' : Function.update q ra rb r' = r' := by
        rw [Function.update_noteq hr]
        exact hfixq
      obtain ⟨m, hm⟩ := reach_update_root_right hra hfixq hr k u hk
      exact ⟨hfix', m, hm⟩

/-- Full specification of `_find_parent` with fuel: given the rank invariant
and enough fuel for the chain of `v` to stabilize, it returns the
representative of `v`, and the compressed parent map has the same fixpoints,
satisfies the rank invariant and defines the same representatives. -/
theorem find_parent_spec {n : ℕ} {rk : Fin n → ℕ} :
    ∀ (fuel : ℕ) (p : Fin n → Fin n) (v : Fin n), UFInv p rk →
      p (p^[fuel] v) = p^[fuel] v →
      Root p v (find_parent fuel p v).2 ∧
      (∀ w, (find_parent fuel p v).1 w = w ↔ p w = w) ∧
      UFInv (find_parent fuel p v).1 rk ∧
      (∀ u r, Root (find_parent fuel p v).1 u r ↔ Root p u r) := by
  intro fuel
  induction fuel with
  | zero =>
    intro p v hUF hfix
    have hfix0 : p v = v := hfix
    exact ⟨root_of_fixed hfix0, fun w => Iff.rfl, hUF, fun u r => Iff.rfl⟩
  | succ fuel ih =>
    intro p v hUF hfix
    by_cases hv : p v = v
    · have heq : find_parent (fuel + 1) p v = (p, v) := by
        simp [find_parent, hv]
      rw [heq]
      exact ⟨root_of_fixed hv, fun w => Iff.rfl, hUF, fun u r => Iff.rfl⟩
    · have hfix' : p (p^[fuel] (p v)) = p^[fuel] (p v) := by
        rw [← Function.iterate_succ_apply]
        exact hfix
      obtain ⟨hroot1, hfixpres, hUF1, hrootiff⟩ := ih p (p v) hUF hfix'
      have heq : find_parent (fuel + 1) p v =
          (Function.update (find_parent fuel p (p v)).1 v (find_parent fuel p (p v)).2,
           (find_parent fuel p (p v)).2) := by
        simp [find_parent, hv]
      rw [heq]
      dsimp only
      have hrootv : Root p v (find_parent fuel p (p v)).2 := hroot1.step
      have hfound_ne : (find_parent fuel p (p v)).2 ≠ v := by
        rintro heq
        exact hv (heq ▸ hrootv.1)
      have hroot1' : Root (find_parent fuel p (p v)).1 v (find_parent fuel p (p v)).2 :=
        (hrootiff _ _).mpr hrootv
      have hv1 : (find_parent fuel p (p v)).1 v ≠ v := fun h => hv ((hfixpres v).mp h)
      refine ⟨hrootv, ?_, ?_, ?_⟩
      · intro w
        by_cases hw : w = v
        · subst hw
          rw [Function.update_same]
          exact ⟨fun h => absurd h hfound_ne, fun h => absurd h hv⟩
        · rw [Function.update_noteq hw]
          exact hfixpres w
      · intro w hw
        by_cases hweq : w = v
        · subst hweq
          rw [Function.update_same]
          exact rank_lt_of_root hUF hrootv hv
        · rw [Function.update_noteq hweq] at hw ⊢
          exact hUF1 w hw
      · intro u r
        rw [root_update_nonroot hroot1' hv1 u r]
        exact hrootiff u r

theorem nroots_update_root {n : ℕ} {q : Fin n → Fin n} {ra rb : Fin n}
    (hra : q ra = ra) (hne : ra ≠ rb) :
    nroots (Function.update q ra rb) + 1 = nroots q := by
  unfold nroots
  have hset : (Finset.univ.filter fun v => Function.update q ra rb v = v) =
      (Finset.univ.filter fun v => q v = v).erase ra := by
    ext v
    simp only [Finset.mem_filter, Finset.mem_univ, true_and, Finset.mem_erase]
    by_cases hv : v = ra
    · subst hv
      rw [Function.update_same]
      constructor
      · intro h
        exact absurd h.symm hne
      · rintro ⟨hcontra, _⟩
        exact absurd rfl hcontra
    · rw [Function.update_noteq hv]
      exact ⟨fun h => ⟨hv, h⟩, fun h => h.2⟩
  rw [hset]
  exact Finset.card_erase_add_one (by simp [hra])

theorem UFInv_update_root {n : ℕ} {q : Fin n → Fin n} {rk : Fin n → ℕ}
    {ra rb : Fin n} (hUF : UFInv q rk) (hlt : rk ra < rk rb) :
    UFInv (Function.update q ra rb) rk := by
  intro v hv
  by_cases hveq : v = ra
  · subst hveq
    rw [Function.update_same]
    exact hlt
  · rw [Function.update_noteq hveq] at hv ⊢
    exact hUF v hv

theorem UFInv_update_root_bump {n : ℕ} {q : Fin n → Fin n} {rk : Fin n → ℕ}
    {ra rb : Fin n} (hUF : UFInv q rk) (hrb : q rb = rb)
    (hne : ra ≠ rb) (heq : rk ra = rk rb) :
    UFInv (Function.update q ra rb) (Function.update rk rb (rk rb + 1)) := by
  intro v hv
  by_cases hveq : v = ra
  · subst hveq
    rw [Function.update_same, Function.update_noteq hne, Function.update_same]
    omega
  · rw [Function.update_noteq hveq] at hv ⊢
    have hvrb : v ≠ rb := by
      rintro rfl
      exact hv hrb
    rw [Function.update_noteq hvrb]
    have h1 : rk v < rk (q v) := hUF v hv
    by_cases hqv : q v = rb
    · rw [hqv] at h1
      rw [hqv, Function.update_same]
      omega
    · rw [Function.update_noteq hqv]
      exact h1

theorem link_props {n : ℕ} {p2 p : Fin n → Fin n} {ra rb : Fin n}
    (hfixiff : ∀ w, p2 w = w ↔ p w = w)
    (hiff : ∀ u r, Root p2 u r ↔ Root p u r)
    (hra : p2 ra = ra) (hrb : p2 rb = rb) (hne : ra ≠ rb) :
    nroots (Function.update p2 ra rb) + 1 = nroots p ∧
    (∀ a b, sameRoot p a b → sameRoot (Function.update p2 ra rb) a b) := by
  have hnroots2 : nroots p2 = nroots p := by
    unfold nroots
    congr 1
    ext v
    simp [hfixiff v]
  constructor
  · rw [nroots_update_root hra hne, hnroots2]
  · rintro a b ⟨r, h1, h2⟩
    have h1' : Root p2 a r := (hiff a r).mpr h1
    have h2' : Root p2 b r := (hiff b r).mpr h2
    by_cases hr : r = ra
    · subst hr
      exact ⟨rb, (root_update_root hra hrb hne a rb).mpr (Or.inl ⟨h1', rfl⟩),
        (root_update_root hra hrb hne b rb).mpr (Or.inl ⟨h2', rfl⟩)⟩
    · exact ⟨r, (root_update_root hra hrb hne a r).mpr (Or.inr ⟨h1', hr⟩),
        (root_update_root hra hrb hne b r).mpr (Or.inr ⟨h2', hr⟩)⟩

theorem uf_union_spec {n : ℕ} (p : Fin n → Fin n) (rk : Fin n → ℕ) (x y : Fin n)
    (hUF : UFInv p rk) :
    UFInv (uf_union p rk x y).1 (uf_union p rk x y).2.1 ∧
    ((uf_union p rk x y).2.2 = true ↔ ¬ sameRoot p x y) ∧
    ((uf_union p rk x y).2.2 = false →
      (∀ w, (uf_union p rk x y).1 w = w ↔ p w = w) ∧
      ∀ u r, Root (uf_union p rk x y).1 u r ↔ Root p u r) ∧
    ((uf_union p rk x y).2.2 = true →
      nroots (uf_union p rk x y).1 + 1 = nroots p ∧
      sameRoot (uf_union p rk x y).1 x y ∧
      ∀ a b, sameRoot p a b → sameRoot (uf_union p rk x y).1 a b) := by
  obtain ⟨hrx, hfix1, hUF1, hiff1⟩ :=
    find_parent_spec n p x hUF (exists_fix_of_UFInv hUF x)
  obtain ⟨hry1, hfix2, hUF2, hiff2⟩ :=
    find_parent_spec n (find_parent n p x).1 y hUF1 (exists_fix_of_UFInv hUF1 y)
  set p1 := (find_parent n p x).1 with hp1
  set rx := (find_parent n p x).2 with hrxdef
  set p2 := (find_parent n p1 y).1 with hp2
  set ry := (find_parent n p1 y).2 with hrydef
  have hry : Root p y ry := (hiff1 _ _).mp hry1
  have hfixiff : ∀ w, p2 w = w ↔ p w = w := fun w => (hfix2 w).trans (hfix1 w)
  have hiff : ∀ u r, Root p2 u r ↔ Root p u r := fun u r => (hiff2 u r).trans (hiff1 u r)
  have hrxfix2 : p2 rx = rx := (hfixiff rx).mpr hrx.1
  have hryfix2 : p2 ry = ry := (hfixiff ry).mpr hry.1
  have hrootx2 : Root p2 x rx := (hiff x rx).mpr hrx
  have hrooty2 : Root p2 y ry := (hiff y ry).mpr hry
  have hu : uf_union p rk x y =
      (if rx = ry then (p2, rk, false)
       else if rk rx < rk ry then (Function.update p2 rx ry, rk, true)
       else if rk ry < rk rx then (Function.update p2 ry rx, rk, true)
       else (Function.update p2 ry rx, Function.update rk rx (rk rx + 1), true)) := rfl
  by_cases hxy : rx = ry
  · rw [hu, if_pos hxy]
    refine ⟨hUF2, ?_, fun _ => ⟨hfixiff, hiff⟩, fun h => by simp at h⟩
    constructor
    · intro h
      simp at h
    · intro h
      exact absurd ⟨ry, hxy ▸ hrx, hry⟩ h
  · have hnots : ¬ sameRoot p x y := by
      rintro ⟨r, h1, h2⟩
      exact hxy ((hrx.unique h1) ▸ (hry.unique h2) ▸ rfl)
    rw [hu, if_neg hxy]
    by_cases hlt : rk rx < rk ry
    · rw [if_pos hlt]
      obtain ⟨hcount, hpersist⟩ := link_props hfixiff hiff hrxfix2 hryfix2 hxy
      refine ⟨UFInv_update_root hUF2 hlt, by simp [hnots], fun h => by simp at h,
        fun _ => ⟨hcount, ?_, hpersist⟩⟩
      exact ⟨ry, (root_update_root hrxfix2 hryfix2 hxy x ry).mpr (Or.inl ⟨hrootx2, rfl⟩),
        (root_update_root hrxfix2 hryfix2 hxy y ry).mpr
          (Or.inr ⟨hrooty2, fun h => hxy h.symm⟩)⟩
    · rw [if_neg hlt]
      by_cases hgt : rk ry < rk rx
      · rw [if_pos hgt]
        obtain ⟨hcount, hpersist⟩ :=
          link_props hfixiff hiff hryfix2 hrxfix2 (Ne.symm hxy)
        refine ⟨UFInv_update_root hUF2 hgt, by simp [hnots], fun h => by simp at h,
          fun _ => ⟨hcount, ?_, hpersist⟩⟩
        exact ⟨rx, (root_update_root hryfix2 hrxfix2 (Ne.symm hxy) x rx).mpr
            (Or.inr ⟨hrootx2, hxy⟩),
          (root_update_root hryfix2 hrxfix2 (Ne.symm hxy) y rx).mpr
            (Or.inl ⟨hrooty2, rfl⟩)⟩
      · rw [if_neg hgt]
        have hrkeq : rk ry = rk rx := by omega
        obtain ⟨hcount, hpersist⟩ :=
          link_props hfixiff hiff hryfix2 hrxfix2 (Ne.symm hxy)
        refine ⟨UFInv_update_root_bump hUF2 hrxfix2 (Ne.symm hxy) hrkeq,
          by simp [hnots], fun h => by simp at h, fun _ => ⟨hcount, ?_, hpersist⟩⟩
        exact ⟨rx, (root_update_root hryfix2 hrxfix2 (Ne.symm hxy) x rx).mpr
            (Or.inr ⟨hrootx2, hxy⟩),
          (root_update_root hryfix2 hrxfix2 (Ne.symm hxy) y rx).mpr
            (Or.inl ⟨hrooty2, rfl⟩)⟩

/-- Main loop invariant of the randomized Kruskal construction: accepted edges
plus remaining classes always account for all `n` nodes, accepted edges join
previously distinct classes (so their unordered keys stay distinct), and after
the drawn order is exhausted every drawn edge has both endpoints in one
class. -/
theorem kruskal_loop_invariant {n : ℕ} (edges : List (Fin n × Fin n × ℚ)) :
    ∀ (order : List ℕ) (p : Fin n → Fin n) (rk : Fin n → ℕ)
      (acc : List (Fin n × Fin n × ℚ)),
      UFInv p rk →
      acc.length + nroots p = n →
      (∀ e ∈ acc, sameRoot p e.1 e.2.1) →
      ((acc.map fun e => (e.1, e.2.1)).Nodup) →
      (((kruskal_loop edges order p rk acc).map fun e => (e.1, e.2.1)).Nodup ∧
        ((kruskal_loop edges order p rk acc).length = n - 1 ∨
          ∃ p' rk', UFInv p' rk' ∧
            (kruskal_loop edges order p rk acc).length + nroots p' = n ∧
            (∀ a b, sameRoot p a b → sameRoot p' a b) ∧
            (∀ idx ∈ order, ∀ e : Fin n × Fin n × ℚ,
              edges.get? idx = some e → sameRoot p' e.1 e.2.1))) := by
  intro order
  induction order with
  | nil =>
    intro p rk acc hUF hcount hsame hnodup
    refine ⟨hnodup, Or.inr ⟨p, rk, hUF, hcount, fun a b h => h, ?_⟩⟩
    intro idx hidx
    exact absurd hidx (List.not_mem_nil idx)
  | cons idx rest ih =>
    intro p rk acc hUF hcount hsame hnodup
    rw [kruskal_loop]
    cases hget : edges.get? idx with
    | none =>
      obtain ⟨hnd, hres⟩ := ih p rk acc hUF hcount hsame hnodup
      refine ⟨hnd, ?_⟩
      rcases hres with h | ⟨p', rk', h1, h2, h3, h4⟩
      · exact Or.inl h
      · refine Or.inr ⟨p', rk', h1, h2, h3, ?_⟩
        intro idx' hidx' e hget'
        rcases List.mem_cons.mp hidx' with rfl | hidx'
        · rw [hget] at hget'
          cases hget'
        · exact h4 idx' hidx' e hget'
    | some a =>
      obtain ⟨i, j, w⟩ := a
      obtain ⟨huf', htrueiff, hfalse, htrue⟩ := uf_union_spec p rk i j hUF
      simp only []
      by_cases hmerge : (uf_union p rk i j).2.2
      · rw [if_pos hmerge]
        obtain ⟨hcount', hsamexy, hpersist⟩ := htrue hmerge
        have hnotsame : ¬ sameRoot p i j := htrueiff.mp hmerge
        have hkeynot : ((i, j) : Fin n × Fin n) ∉ acc.map fun e => (e.1, e.2.1) := by
          intro hk
          obtain ⟨e', he', hk'⟩ := List.mem_map.mp hk
          have hthis := hsame e' he'
          have h1 : e'.1 = i := congrArg Prod.fst hk'
          have h2 : e'.2.1 = j := congrArg Prod.snd hk'
          rw [h1, h2] at hthis
          exact hnotsame hthis
        have hnodup' : ((acc ++ [(i, j, w)]).map fun e => (e.1, e.2.1)).Nodup := by
          rw [List.map_append]
          simp only [List.map_cons, List.map_nil]
          rw [List.nodup_append]
          exact ⟨hnodup, List.nodup_singleton _, by
            intro k hk hk'
            simp only [List.mem_singleton] at hk'
            exact hkeynot (hk' ▸ hk)⟩
        have hcountnew : (acc ++ [(i, j, w)]).length + nroots (uf_union p rk i j).1 = n := by
          rw [List.length_append, List.length_singleton]
          omega
        have hsamenew : ∀ e ∈ acc ++ [(i, j, w)],
            sameRoot (uf_union p rk i j).1 e.1 e.2.1 := by
          intro e he
          rcases List.mem_append.mp he with h | h
          · exact hpersist _ _ (hsame e h)
          · simp only [List.mem_singleton] at h
            subst h
            exact hsamexy
        by_cases hlen : (acc ++ [(i, j, w)]).length = n - 1
        · rw [if_pos hlen]
          exact ⟨hnodup', Or.inl hlen⟩
        · rw [if_neg hlen]
          obtain ⟨hnd, hres⟩ := ih (uf_union p rk i j).1 (uf_union p rk i j).2.1
            (acc ++ [(i, j, w)]) huf' hcountnew hsamenew hnodup'
          refine ⟨hnd, ?_⟩
          rcases hres with h | ⟨p', rk', h1, h2, h3, h4⟩
          · exact Or.inl h
          · refine Or.inr ⟨p', rk', h1, h2,
              fun a b h => h3 a b (hpersist a b h), ?_⟩
            intro idx' hidx' e hget'
            rcases List.mem_cons.mp hidx' with rfl | hidx'
            · rw [hget] at hget'
              cases hget'
              exact h3 _ _ hsamexy
            · exact h4 idx' hidx' e hget'
      · rw [if_neg hmerge]
        have hfb : (uf_union p rk i j).2.2 = false := by
          cases hb : (uf_union p rk i j).2.2
          · rfl
          · exact absurd hb hmerge
        obtain ⟨hfixiff, hiffroot⟩ := hfalse hfb
        have hsameiff : ∀ a b, sameRoot p a b ↔ sameRoot (uf_union p rk i j).1 a b := by
          intro a b
          constructor
          · rintro ⟨r, h1, h2⟩
            exact ⟨r, (hiffroot a r).mpr h1, (hiffroot b r).mpr h2⟩
          · rintro ⟨r, h1, h2⟩
            exact ⟨r, (hiffroot a r).mp h1, (hiffroot b r).mp h2⟩
        have hnroots : nroots (uf_union p rk i j).1 = nroots p := by
          unfold nroots
          congr 1
          ext v
          simp [hfixiff v]
        have hsameij : sameRoot p i j := by
          by_contra hns
          exact hmerge (htrueiff.mpr hns)
        obtain ⟨hnd, hres⟩ := ih (uf_union p rk i j).1 (uf_union p rk i j).2.1 acc huf'
          (by rw [hnroots]; exact hcount)
          (fun e he => (hsameiff _ _).mp (hsame e he)) hnodup
        refine ⟨hnd, ?_⟩
        rcases hres with h | ⟨p', rk', h1, h2, h3, h4⟩
        · exact Or.inl h
        · refine Or.inr ⟨p', rk', h1, h2,
            fun a b h => h3 a b ((hsameiff a b).mp h), ?_⟩
          intro idx' hidx' e hget'
          rcases List.mem_cons.mp hidx' with rfl | hidx'
          · rw [hget] at hget'
            cases hget'
            exact h3 _ _ ((hsameiff _ _).mp hsameij)
          · exact h4 idx' hidx' e hget'

theorem foldl_no_match {n : ℕ} (a b : Fin n) :
    ∀ (te : List (Fin n × Fin n × ℚ)) (m : Matrix (Fin n) (Fin n) ℚ),
      (∀ e ∈ te, ¬ ((a = e.1 ∧ b = e.2.1) ∨ (a = e.2.1 ∧ b = e.1))) →
      (te.foldl set_tree_edge m) a b = m a b := by
  intro te
  induction te with
  | nil => intro m _; rfl
  | cons f rest ih =>
    intro m h
    rw [List.foldl_cons, ih _ (fun e he => h e (List.mem_cons_of_mem f he))]
    unfold set_tree_edge
    rw [if_neg (h f (List.mem_cons_self f rest))]

theorem match_key_eq {n : ℕ} {a b : Fin n} {e f : Fin n × Fin n × ℚ}
    (h1 : e.1 < e.2.1) (h2 : f.1 < f.2.1)
    (hm : (a = e.1 ∧ b = e.2.1) ∨ (a = e.2.1 ∧ b = e.1))
    (hm' : (a = f.1 ∧ b = f.2.1) ∨ (a = f.2.1 ∧ b = f.1)) :
    (e.1, e.2.1) = (f.1, f.2.1) := by
  rcases hm with ⟨ha, hb⟩ | ⟨ha, hb⟩ <;> rcases hm' with ⟨ha', hb'⟩ | ⟨ha', hb'⟩
  · rw [← ha, ← hb, ha', hb']
  · exfalso
    rw [ha'] at ha
    rw [hb'] at hb
    rw [← ha, ← hb] at h1
    exact absurd h2 (not_lt.mpr h1.le)
  · exfalso
    rw [ha'] at ha
    rw [hb'] at hb
    rw [← ha, ← hb] at h1
    exact absurd h2 (not_lt.mpr h1.le)
  · rw [← ha, ← hb, ha', hb']

theorem foldl_match {n : ℕ} (a b : Fin n) :
    ∀ (te : List (Fin n × Fin n × ℚ)) (e : Fin n × Fin n × ℚ)
      (m : Matrix (Fin n) (Fin n) ℚ),
      ((te.map fun e => (e.1, e.2.1)).Nodup) →
      (∀ f ∈ te, f.1 < f.2.1) →
      e ∈ te →
      ((a = e.1 ∧ b = e.2.1) ∨ (a = e.2.1 ∧ b = e.1)) →
      (te.foldl set_tree_edge m) a b = e.2.2 := by
  intro te
  induction te with
  | nil => intro e m _ _ he; exact absurd he (List.not_mem_nil e)
  | cons f rest ih =>
    intro e m hnodup hlt he hmatch
    rw [List.foldl_cons]
    rw [List.map_cons, List.nodup_cons] at hnodup
    rcases List.mem_cons.mp he with rfl | he
    · rw [foldl_no_match a b rest _ ?nomat]
      · unfold set_tree_edge
        rw [if_pos hmatch]
      case nomat =>
        intro g hg hc
        have hkey := match_key_eq (hlt e (List.mem_cons_self e rest))
          (hlt g (List.mem_cons_of_mem e hg)) hmatch hc
        exact hnodup.1 (hkey ▸ List.mem_map.mpr ⟨g, hg, rfl⟩)
    · exact ih e _ hnodup.2 (fun g hg => hlt g (List.mem_cons_of_mem f hg)) he hmatch

theorem foldl_set_tree_symm {n : ℕ} :
    ∀ (te : List (Fin n × Fin n × ℚ)) (m : Matrix (Fin n) (Fin n) ℚ),
      (∀ a b, m a b = m b a) →
      ∀ a b, (te.foldl set_tree_edge m) a b = (te.foldl set_tree_edge m) b a := by
  intro te
  induction te with
  | nil => intro m h; exact h
  | cons f rest ih =>
    intro m h
    rw [List.foldl_cons]
    apply ih
    intro a b
    unfold set_tree_edge
    by_cases hc : (a = f.1 ∧ b = f.2.1) ∨ (a = f.2.1 ∧ b = f.1)
    · rw [if_pos hc,
        if_pos (hc.elim (fun hp => Or.inr ⟨hp.2, hp.1⟩) (fun hp => Or.inl ⟨hp.2, hp.1⟩))]
    · rw [if_neg hc, if_neg (fun hc' => hc
        (hc'.elim (fun hp => Or.inr ⟨hp.2, hp.1⟩) (fun hp => Or.inl ⟨hp.2, hp.1⟩)))]
      exact h a b

theorem tree_matrix_edge_count {n : ℕ} (te : List (Fin n × Fin n × ℚ))
    (hnodup : (te.map fun e => (e.1, e.2.1)).Nodup)
    (hlt : ∀ e ∈ te, e.1 < e.2.1)
    (hpos : ∀ e ∈ te, 0 < e.2.2) :
    (Finset.univ.filter fun q : Fin n × Fin n =>
      q.1 < q.2 ∧ (te.foldl set_tree_edge 0) q.1 q.2 ≠ 0).card = te.length := by
  have hset : (Finset.univ.filter fun q : Fin n × Fin n =>
      q.1 < q.2 ∧ (te.foldl set_tree_edge 0) q.1 q.2 ≠ 0) =
      (te.map fun e => (e.1, e.2.1)).toFinset := by
    ext q
    obtain ⟨a, b⟩ := q
    simp only [Finset.mem_filter, Finset.mem_univ, true_and, List.mem_toFinset, List.mem_map]
    constructor
    · rintro ⟨hab, hne⟩
      by_contra hnk
      push_neg at hnk
      apply hne
      rw [foldl_no_match a b te 0 ?nomat]
      · rfl
      case nomat =>
        intro e he hm
        rcases hm with ⟨ha, hb⟩ | ⟨ha, hb⟩
        · exact hnk e he (by rw [← ha, ← hb])
        · rw [ha, hb] at hab
          exact absurd (hlt e he) (not_lt.mpr hab.le)
    · rintro ⟨e, he, hkey⟩
      have h1 : e.1 = a := congrArg Prod.fst hkey
      have h2 : e.2.1 = b := congrArg Prod.snd hkey
      refine ⟨by rw [← h1, ← h2]; exact hlt e he, ?_⟩
      rw [foldl_match a b te e 0 hnodup hlt he (Or.inl ⟨h1.symm, h2.symm⟩)]
      exact ne_of_gt (hpos e he)
  rw [hset, List.toFinset_card_of_nodup hnodup, List.length_map]

theorem nroots_eq_one_of_all_same {n : ℕ} {p : Fin n → Fin n} {rk : Fin n → ℕ}
    (hUF : UFInv p rk) (hn : 0 < n)
    (hall : ∀ u w : Fin n, sameRoot p u w) : nroots p = 1 := by
  obtain ⟨r, hr⟩ := exists_root hUF ⟨0, hn⟩
  have hset : (Finset.univ.filter fun v => p v = v) = {r} := by
    ext v
    simp only [Finset.mem_filter, Finset.mem_univ, true_and, Finset.mem_singleton]
    constructor
    · intro hv
      obtain ⟨s, hvs, hrs⟩ := hall v r
      have hv' : v = s := (root_of_fixed hv).unique hvs
      have hr' : r = s := (root_of_fixed hr.1).unique hrs
      rw [hv', hr']
    · intro hv
      rw [hv]
      exact hr.1
  rw [nroots, hset, Finset.card_singleton]

/-- C4: for every connected n-node graph given as a symmetric non-negative
adjacency matrix, `generate_random_spanning_tree` returns — for every possible
random draw, i.e. every drawn order that covers all edge indices — an
adjacency matrix that is symmetric and contains exactly n−1 undirected
edges (a spanning tree). -/
theorem generate_random_spanning_tree_spec {n : ℕ}
    (cr : Matrix (Fin n) (Fin n) ℚ)
    (hsymm : ∀ a b, cr a b = cr b a)
    (hnn : ∀ a b, 0 ≤ cr a b)
    (hconn : ∀ u w : Fin n,
      Relation.ReflTransGen (fun a b => a ≠ b ∧ 0 < cr a b) u w)
    (order : List ℕ)
    (hcover : ∀ k, k < (get_edges_from_matrix cr).length → k ∈ order) :
    (∀ a b, generate_random_spanning_tree cr order a b =
      generate_random_spanning_tree cr order b a) ∧
    (Finset.univ.filter fun q : Fin n × Fin n =>
      q.1 < q.2 ∧ generate_random_spanning_tree cr order q.1 q.2 ≠ 0).card = n - 1 := by
  by_cases hE : get_edges_from_matrix cr = []
  · rw [generate_random_spanning_tree, if_pos hE]
    refine ⟨fun a b => rfl, ?_⟩
    have hempty : (Finset.univ.filter fun q : Fin n × Fin n =>
        q.1 < q.2 ∧ (0 : Matrix (Fin n) (Fin n) ℚ) q.1 q.2 ≠ 0) = ∅ := by
      apply Finset.filter_false_of_mem
      intro q _ hq
      exact hq.2 rfl
    rw [hempty, Finset.card_empty]
    by_contra hcard
    have hn2 : 2 ≤ n := by omega
    have h01 : (⟨0, by omega⟩ : Fin n) ≠ ⟨1, by omega⟩ := by
      intro h
      exact absurd (congrArg Fin.val h) (by simp)
    rcases (hconn ⟨0, by omega⟩ ⟨1, by omega⟩).cases_head with h | ⟨c, ⟨hne, hpos⟩, _⟩
    · exact h01 h
    · have hlt : (⟨0, by omega⟩ : Fin n) < c := by
        rcases Nat.eq_zero_or_pos c.val with h0 | h0
        · exact absurd (Fin.ext h0.symm) hne
        · exact h0
      have hmem : ((⟨0, by omega⟩ : Fin n), c, cr ⟨0, by omega⟩ c) ∈
          get_edges_from_matrix cr :=
        (mem_get_edges_iff cr _).mpr ⟨hlt, hpos, rfl⟩
      rw [hE] at hmem
      exact absurd hmem (List.not_mem_nil _)
  · rw [generate_random_spanning_tree, if_neg hE]
    obtain ⟨e0, he0⟩ := List.exists_mem_of_ne_nil _ hE
    have hn : 0 < n := e0.1.pos
    have hid : UFInv (fun i : Fin n => i) (fun _ => 0) := fun v hv => absurd rfl hv
    have hnid : nroots (fun i : Fin n => i) = n := by
      rw [nroots]
      simp
    obtain ⟨hnd, hres⟩ := kruskal_loop_invariant (get_edges_from_matrix cr) order
      (fun i => i) (fun _ => 0) [] hid (by rw [hnid]; simp)
      (fun e he => absurd he (List.not_mem_nil e)) List.nodup_nil
    have hsub : ∀ e ∈ kruskal_loop (get_edges_from_matrix cr) order
        (fun i => i) (fun _ => 0) [], e ∈ get_edges_from_matrix cr := by
      intro e he
      rcases kruskal_loop_subset (get_edges_from_matrix cr) order
        (fun i => i) (fun _ => 0) [] e he with h | h
      · exact absurd h (List.not_mem_nil e)
      · exact h
    have hlt : ∀ e ∈ kruskal_loop (get_edges_from_matrix cr) order
        (fun i => i) (fun _ => 0) [], e.1 < e.2.1 :=
      fun e he => ((mem_get_edges_iff cr e).mp (hsub e he)).1
    have hpos : ∀ e ∈ kruskal_loop (get_edges_from_matrix cr) order
        (fun i => i) (fun _ => 0) [], 0 < e.2.2 := by
      intro e he
      obtain ⟨_, hp, hw⟩ := (mem_get_edges_iff cr e).mp (hsub e he)
      rw [hw]
      exact hp
    refine ⟨foldl_set_tree_symm _ 0 (fun a b => rfl), ?_⟩
    rw [tree_matrix_edge_count _ hnd hlt hpos]
    rcases hres with h | ⟨p', rk', hUF', hcount', _, hcov'⟩
    · exact h
    · have hstep : ∀ a b : Fin n, (a ≠ b ∧ 0 < cr a b) → sameRoot p' a b := by
        intro a b ⟨hne, hp⟩
        have hedge : ∀ x y : Fin n, x < y → 0 < cr x y → sameRoot p' x y := by
          intro x y hxy hxy'
          have hmem : (x, y, cr x y) ∈ get_edges_from_matrix cr :=
            (mem_get_edges_iff cr _).mpr ⟨hxy, hxy', rfl⟩
          obtain ⟨⟨idx, hidx⟩, hget⟩ := List.mem_iff_get.mp hmem
          have hget? : (get_edges_from_matrix cr).get? idx = some (x, y, cr x y) := by
            rw [List.get?_eq_get hidx, hget]
          exact hcov' idx (hcover idx hidx) _ hget?
        rcases lt_trichotomy a b with h | h | h
        · exact hedge a b h hp
        · exact absurd h hne
        · exact sameRoot_symm (hedge b a h (by rw [hsymm b a]; exact hp))
      have hall : ∀ u w : Fin n, sameRoot p' u w := by
        intro u w
        induction hconn u w with
        | refl => exact sameRoot_refl hUF' u
        | tail _ hs ih => exact sameRoot_trans ih (hstep _ _ hs)
      rw [nroots_eq_one_of_all_same hUF' hn hall] at hcount'
      omega

/-- Witness for C4: the triangle graph with the identity draw order. -/
theorem generate_random_spanning_tree_spec_witness :
    (∀ a b, generate_random_spanning_tree triangleCR [0, 1, 2] a b =
      generate_random_spanning_tree triangleCR [0, 1, 2] b a) ∧
    (Finset.univ.filter fun q : Fin 3 × Fin 3 =>
      q.1 < q.2 ∧ generate_random_spanning_tree triangleCR [0, 1, 2] q.1 q.2 ≠ 0).card =
      3 - 1 :=
  generate_random_spanning_tree_spec triangleCR
    (by
      intro a b
      by_cases h : a = b
      · rw [h]
      · rw [(show triangleCR a b = 1 from if_neg h),
          (show triangleCR b a = 1 from if_neg (Ne.symm h))])
    (by
      intro a b
      by_cases h : a = b
      · rw [(show triangleCR a b = 0 from if_pos h)]
      · rw [(show triangleCR a b = 1 from if_neg h)]
        norm_num)
    (by
      intro u w
      by_cases h : u = w
      · rw [h]
      · exact Relation.ReflTransGen.single
          ⟨h, by rw [(show triangleCR u w = 1 from if_neg h)]; norm_num⟩)
    [0, 1, 2]
    (by
      intro k hk
      rw [triangleCR_edges] at hk
      simp only [List.length_cons, List.length_nil] at hk
      simp only [List.mem_cons, List.not_mem_nil, or_false]
      omega)

/-- One coordination pair record built by
`MCSTCAnalysisService._generate_coordination_pairs` (Django fields that the
function fills with constants are kept: `shared_files`/`coordination_files`
are always `[]`). -/
structure PairData where
  contributor1_id : String
  contributor1_role : String
  contributor1_email : String
  contributor2_id : String
  contributor2_role : String
  contributor2_email : String
  coordination_requirement : ℚ
  actual_coordination : ℚ
  coordination_gap : ℚ
  impact_score : ℚ
  is_inter_class : Bool
  is_missed_coordination : Bool
  is_unnecessary_coordination : Bool
  shared_files : List String
  coordination_files : List String

/-- The `pair_data` dictionary built for index pair `(i, j)`:
`role = role_mapping.get(user, 'unclassified')`,
`email = id_to_user.get(user, '')`, `coordination_gap = cr - ca`,
`impact_score = abs(gap) * cr`, `is_missed = gap > 0.1`,
`is_unnecessary = gap < -0.1`, `is_inter_class = role1 != role2`. -/
def pairRecord {n : ℕ} (cr ca : Matrix (Fin n) (Fin n) ℚ) (users : Fin n → String)
    (rm : String → Option String) (idu : String → Option String)
    (i j : Fin n) : PairData :=
  { contributor1_id := users i
    contributor1_role := (rm (users i)).getD "unclassified"
    contributor1_email := (idu (users i)).getD ""
    contributor2_id := users j
    contributor2_role := (rm (users j)).getD "unclassified"
    contributor2_email := (idu (users j)).getD ""
    coordination_requirement := cr i j
    actual_coordination := ca i j
    coordination_gap := cr i j - ca i j
    impact_score := abs (cr i j - ca i j) * cr i j
    is_inter_class :=
      decide ((rm (users i)).getD "unclassified" ≠ (rm (users j)).getD "unclassified")
    is_missed_coordination := decide ((1 : ℚ) / 10 < cr i j - ca i j)
    is_unnecessary_coordination := decide (cr i j - ca i j < -((1 : ℚ) / 10))
    shared_files := []
    coordination_files := [] }

/-- The raw pair list of `_generate_coordination_pairs` before sorting: the
double loop over `enumerate(all_users)` skipping `i >= j` and `cr_value <= 0`,
in discovery order. -/
def generate_coordination_pairs_raw {n : ℕ} (cr ca : Matrix (Fin n) (Fin n) ℚ)
    (users : Fin n → String) (rm : String → Option String)
    (idu : String → Option String) : List PairData :=
  (List.finRange n).flatMap fun i =>
    (List.finRange n).filterMap fun j =>
      if i < j ∧ 0 < cr i j then some (pairRecord cr ca users rm idu i j) else none

/-- Stable insertion of a later-discovered record into a descending-sorted
list: it goes before an element only when its impact score is strictly
larger, so ties keep discovery order (the semantics of Python's stable
`list.sort(key=..., reverse=True)`). -/
def insert_pair_desc (x : PairData) : List PairData → List PairData
  | [] => [x]
  | y :: ys =>
    if y.impact_score ≤ x.impact_score then x :: y :: ys
    else y :: insert_pair_desc x ys

/-- Stable sort by `impact_score` descending (model of Python's stable
`pairs.sort(key=lambda x: x['impact_score'], reverse=True)`). -/
def sort_pairs_desc : List PairData → List PairData
  | [] => []
  | x :: xs => insert_pair_desc x (sort_pairs_desc xs)

/-- `MCSTCAnalysisService._generate_coordination_pairs`: raw pair discovery
followed by the stable descending sort on impact score. -/
def generate_coordination_pairs {n : ℕ} (cr ca : Matrix (Fin n) (Fin n) ℚ)
    (users : Fin n → String) (rm : String → Option String)
    (idu : String → Option String) : List PairData :=
  sort_pairs_desc (generate_coordination_pairs_raw cr ca users rm idu)

theorem mem_insert_pair_desc (x z : PairData) :
    ∀ l : List PairData, z ∈ insert_pair_desc x l ↔ z = x ∨ z ∈ l := by
  intro l
  induction l with
  | nil => simp [insert_pair_desc]
  | cons y ys ih =>
    rw [insert_pair_desc]
    by_cases hc : y.impact_score ≤ x.impact_score
    · rw [if_pos hc]
      simp
    · rw [if_neg hc]
      simp only [List.mem_cons, ih]
      tauto

theorem mem_sort_pairs_desc (z : PairData) :
    ∀ l : List PairData, z ∈ sort_pairs_desc l ↔ z ∈ l := by
  intro l
  induction l with
  | nil => simp [sort_pairs_desc]
  | cons x xs ih =>
    rw [sort_pairs_desc, mem_insert_pair_desc, ih]
    simp

theorem length_insert_pair_desc (x : PairData) :
    ∀ l : List PairData, (insert_pair_desc x l).length = l.length + 1 := by
  intro l
  induction l with
  | nil => rfl
  | cons y ys ih =>
    rw [insert_pair_desc]
    by_cases hc : y.impact_score ≤ x.impact_score
    · rw [if_pos hc]
      simp
    · rw [if_neg hc]
      simp [ih]

theorem length_sort_pairs_desc :
    ∀ l : List PairData, (sort_pairs_desc l).length = l.length := by
  intro l
  induction l with
  | nil => rfl
  | cons x xs ih =>
    rw [sort_pairs_desc, length_insert_pair_desc, ih, List.length_cons]

theorem pairwise_insert_pair_desc (x : PairData) :
    ∀ l : List PairData,
      l.Pairwise (fun a b => b.impact_score ≤ a.impact_score) →
      (insert_pair_desc x l).Pairwise (fun a b => b.impact_score ≤ a.impact_score) := by
  intro l
  induction l with
  | nil => intro _; exact List.pairwise_singleton _ x
  | cons y ys ih =>
    intro h
    rw [List.pairwise_cons] at h
    rw [insert_pair_desc]
    by_cases hc : y.impact_score ≤ x.impact_score
    · rw [if_pos hc, List.pairwise_cons]
      refine ⟨?_, List.Pairwise.cons h.1 h.2⟩
      intro z hz
      rcases List.mem_cons.mp hz with rfl | hz
      · exact hc
      · exact le_trans (h.1 z hz) hc
    · rw [if_neg hc, List.pairwise_cons]
      refine ⟨?_, ih h.2⟩
      intro z hz
      rcases (mem_insert_pair_desc x z ys).mp hz with rfl | hz
      · exact (not_le.mp hc).le
      · exact h.1 z hz

theorem pairwise_sort_pairs_desc :
    ∀ l : List PairData,
      (sort_pairs_desc l).Pairwise (fun a b => b.impact_score ≤ a.impact_score) := by
  intro l
  induction l with
  | nil => exact List.Pairwise.nil
  | cons x xs ih => exact pairwise_insert_pair_desc x _ ih

theorem filter_insert_pair_desc (c : ℚ) (x : PairData) :
    ∀ l : List PairData,
      (insert_pair_desc x l).filter (fun p => decide (p.impact_score = c)) =
      (x :: l).filter (fun p => decide (p.impact_score = c)) := by
  intro l
  induction l with
  | nil => rfl
  | cons y ys ih =>
    rw [insert_pair_desc]
    by_cases hc : y.impact_score ≤ x.impact_score
    · rw [if_pos hc]
    · rw [if_neg hc]
      by_cases hy : y.impact_score = c
      · by_cases hx : x.impact_score = c
        · exact absurd (le_of_eq (hy.trans hx.symm)) hc
        · simp only [List.filter_cons, ih, hy, hx, decide_True, decide_False,
            decide_eq_true_eq, if_true, if_false]
          simp [hy, hx]
      · simp only [List.filter_cons, ih]
        simp [hy]

theorem filter_sort_pairs_desc (c : ℚ) :
    ∀ l : List PairData,
      (sort_pairs_desc l).filter (fun p => decide (p.impact_score = c)) =
      l.filter (fun p => decide (p.impact_score = c)) := by
  intro l
  induction l with
  | nil => rfl
  | cons x xs ih =>
    rw [sort_pairs_desc, filter_insert_pair_desc]
    rw [List.filter_cons, List.filter_cons, ih]

theorem mem_coordination_raw {n : ℕ} (cr ca : Matrix (Fin n) (Fin n) ℚ)
    (users : Fin n → String) (rm : String → Option String)
    (idu : String → Option String) (p : PairData) :
    p ∈ generate_coordination_pairs_raw cr ca users rm idu ↔
      ∃ i j : Fin n, (i < j ∧ 0 < cr i j) ∧ p = pairRecord cr ca users rm idu i j := by
  simp only [generate_coordination_pairs_raw, List.mem_flatMap, List.mem_filterMap,
    List.mem_finRange, true_and, Option.ite_none_right_eq_some, Option.some_inj]
  constructor
  · rintro ⟨i, j, hcond, heq⟩
    exact ⟨i, j, hcond, heq.symm⟩
  · rintro ⟨i, j, hcond, heq⟩
    exact ⟨i, j, hcond, heq.symm⟩

theorem length_filterMap_ite {α β : Type} (P : α → Prop) [DecidablePred P] (g : α → β) :
    ∀ l : List α,
      (l.filterMap fun a => if P a then some (g a) else none).length =
      (l.filter fun a => decide (P a)).length := by
  intro l
  induction l with
  | nil => rfl
  | cons a l ih =>
    rw [List.filterMap_cons, List.filter_cons]
    by_cases h : P a
    · rw [if_pos h]
      simp [h, ih]
    · rw [if_neg h]
      simp [h, ih]

theorem generate_coordination_pairs_raw_length {n : ℕ}
    (cr ca : Matrix (Fin n) (Fin n) ℚ) (users : Fin n → String)
    (rm : String → Option String) (idu : String → Option String) :
    (generate_coordination_pairs_raw cr ca users rm idu).length =
      ∑ i : Fin n, (Finset.univ.filter fun j => i < j ∧ 0 < cr i j).card := by
  rw [generate_coordination_pairs_raw, List.length_flatMap]
  have hinner : ∀ i : Fin n,
      ((List.finRange n).filterMap fun j =>
        if i < j ∧ 0 < cr i j then some (pairRecord cr ca users rm idu i j)
        else none).length =
      (Finset.univ.filter fun j => i < j ∧ 0 < cr i j).card := by
    intro i
    rw [length_filterMap_ite]
    have hfin : (((List.finRange n).filter fun j =>
        decide (i < j ∧ 0 < cr i j)).toFinset) =
        Finset.univ.filter fun j => i < j ∧ 0 < cr i j := by
      ext j
      simp [List.mem_filter]
    rw [← hfin, List.toFinset_card_of_nodup ((List.nodup_finRange n).filter _)]
  simp only [Function.comp_def]
  simp only [hinner]
  rw [← List.ofFn_eq_map, List.sum_ofFn]

/-- C7: `_generate_coordination_pairs` emits exactly one record for each index
pair i < j with CR[i][j] > 0 — the record count equals the number of such
pairs, each emitted record carries gap = CR−CA, impact = |gap|·CR, missed iff
gap > 0.1, unnecessary iff gap < −0.1, inter-class iff the looked-up roles
differ, and every qualifying pair's record appears — and the returned list is
sorted by impact descending with ties kept in discovery order (the filter at
every impact level equals that of the raw discovery-order list). -/
theorem generate_coordination_pairs_spec {n : ℕ}
    (cr ca : Matrix (Fin n) (Fin n) ℚ) (users : Fin n → String)
    (rm : String → Option String) (idu : String → Option String) :
    (∀ p ∈ generate_coordination_pairs cr ca users rm idu,
      ∃ i j : Fin n, i < j ∧ 0 < cr i j ∧
        p.contributor1_id = users i ∧ p.contributor2_id = users j ∧
        p.coordination_requirement = cr i j ∧
        p.actual_coordination = ca i j ∧
        p.coordination_gap = cr i j - ca i j ∧
        p.impact_score = abs (cr i j - ca i j) * cr i j ∧
        (p.is_missed_coordination = true ↔ (1 : ℚ) / 10 < cr i j - ca i j) ∧
        (p.is_unnecessary_coordination = true ↔ cr i j - ca i j < -((1 : ℚ) / 10)) ∧
        (p.is_inter_class = true ↔
          (rm (users i)).getD "unclassified" ≠ (rm (users j)).getD "unclassified")) ∧
    (∀ i j : Fin n, i < j → 0 < cr i j →
      pairRecord cr ca users rm idu i j ∈ generate_coordination_pairs cr ca users rm idu) ∧
    ((generate_coordination_pairs cr ca users rm idu).length =
      ∑ i : Fin n, (Finset.univ.filter fun j => i < j ∧ 0 < cr i j).card) ∧
    ((generate_coordination_pairs cr ca users rm idu).Pairwise
      (fun a b => b.impact_score ≤ a.impact_score)) ∧
    (∀ c : ℚ, (generate_coordination_pairs cr ca users rm idu).filter
        (fun p => decide (p.impact_score = c)) =
      (generate_coordination_pairs_raw cr ca users rm idu).filter
        (fun p => decide (p.impact_score = c))) := by
  refine ⟨?_, ?_, ?_, ?_, ?_⟩
  · intro p hp
    rw [generate_coordination_pairs, mem_sort_pairs_desc, mem_coordination_raw] at hp
    obtain ⟨i, j, ⟨hij, hpos⟩, rfl⟩ := hp
    refine ⟨i, j, hij, hpos, rfl, rfl, rfl, rfl, rfl, rfl, ?_, ?_, ?_⟩
    · simp [pairRecord]
    · simp [pairRecord]
    · simp [pairRecord]
  · intro i j hij hpos
    rw [generate_coordination_pairs, mem_sort_pairs_desc, mem_coordination_raw]
    exact ⟨i, j, ⟨hij, hpos⟩, rfl⟩
  · rw [generate_coordination_pairs, length_sort_pairs_desc,
      generate_coordination_pairs_raw_length]
  · exact pairwise_sort_pairs_desc _
  · intro c
    rw [generate_coordination_pairs, filter_sort_pairs_desc]
